import Mathlib

/-!
Verification development for the `ini` Go package (marcw/ini): a parser and
serializer for INI-format configuration text built on Go's `text/scanner`
with `Mode = ScanStrings` and `Whitespace = 1 << '\t'`.

The embedding models:
- the lexical scanner (`text/scanner` restricted to the configuration the
  package uses: only the tab character is whitespace, only double-quoted
  string literals are recognized as multi-character tokens);
- the four sub-readers `readSection`, `readKey`, `readValue`,
  `readCommentLine` (the repository contains a method variant and a free
  variant of each with character-identical bodies; one embedding covers
  both);
- the store (`Ini.data : map[string]map[string]string`) with `Get`, `Has`,
  `set`; Go maps are unordered, so the store is modelled as an association
  list (lookup-equivalent to the map) and iteration-order nondeterminism is
  modelled by quantifying over permutations where it matters;
- the driver loop shared by `(*Ini).ReadFrom` and the free `Load`, and the
  serializer `(*Ini).WriteTo`.

Loops in the Go source that can run forever (they genuinely do on some
inputs) are modelled with an explicit fuel parameter; the wrappers supply
fuel `remaining characters + 1`, which is sufficient because every
continuing iteration consumes at least one character, so a `spin`/`none`
result corresponds exactly to divergence of the Go code.  Scanner positions
are modelled as the count of runes consumed (the `Offset` field of the Go
`Position`).
-/

namespace Ini

abbrev Chars := List Char

/-- Remaining input plus the number of runes consumed so far (`Pos`). -/
structure Scanner where
  rest : Chars
  offset : Nat
deriving Repr, DecidableEq

/-- One token from `text/scanner.Scan`: end of input (`scanner.EOF`), a
recognized string literal (`scanner.String`, carrying `TokenText()`), or a
single rune. -/
inductive Token where
  | eof
  | str (text : Chars)
  | chr (c : Char)
deriving Repr, DecidableEq

/-- Go `text/scanner.digitVal`: value of a hex digit, 16 for non-digits. -/
def digitVal (c : Char) : Nat :=
  if '0' ≤ c ∧ c ≤ '9' then c.toNat - '0'.toNat
  else if 'a' ≤ c ∧ c ≤ 'f' then c.toNat - 'a'.toNat + 10
  else if 'A' ≤ c ∧ c ≤ 'F' then c.toNat - 'A'.toNat + 10
  else 16

/-- Consume up to `n` digits of base `base` (Go `Scanner.scanDigits`,
rephrased so the next unread character stays at the head of the list).
Returns (consumed, remaining). -/
def takeDigits (base : Nat) : Nat → Chars → Chars × Chars
  | 0, r => ([], r)
  | _ + 1, [] => ([], [])
  | n + 1, c :: r =>
    if digitVal c < base then
      let p := takeDigits base n r
      (c :: p.1, p.2)
    else ([], c :: r)

/-- Go `Scanner.scanEscape` after the backslash has been consumed, rephrased
over the remaining input.  Simple escapes consume the escape letter; digit
escapes consume the digits; an illegal escape consumes nothing further (the
offending character is re-examined by the string loop, as in Go where it is
the returned `ch`).  Returns (consumed, remaining). -/
def scanEscapeTail : Chars → Chars × Chars
  | [] => ([], [])
  | e :: r =>
    if e = 'a' ∨ e = 'b' ∨ e = 'f' ∨ e = 'n' ∨ e = 'r' ∨ e = 't' ∨ e = 'v'
        ∨ e = '\\' ∨ e = '"' then ([e], r)
    else if '0' ≤ e ∧ e ≤ '7' then
      let p := takeDigits 8 2 r
      (e :: p.1, p.2)
    else if e = 'x' then
      let p := takeDigits 16 2 r
      (e :: p.1, p.2)
    else if e = 'u' then
      let p := takeDigits 16 4 r
      (e :: p.1, p.2)
    else if e = 'U' then
      let p := takeDigits 16 8 r
      (e :: p.1, p.2)
    else ([], e :: r)

/-- Go `Scanner.scanString('"')` after the opening quote: consume until the
closing quote; a newline or end of input ends the scan with a "literal not
terminated" diagnostic (the package installs no error handler, so scanning
continues regardless).  Returns (consumed, remaining); the token text is the
opening quote followed by the consumed part. -/
def scanStringBodyF : Nat → Chars → Chars × Chars
  | 0, r => ([], r)
  | _ + 1, [] => ([], [])
  | fuel + 1, c :: r =>
    if c = '"' then (['"'], r)
    else if c = '\n' then (['\n'], r)
    else if c = '\\' then
      let p := scanEscapeTail r
      let q := scanStringBodyF fuel p.2
      (c :: (p.1 ++ q.1), q.2)
    else
      let q := scanStringBodyF fuel r
      (c :: q.1, q.2)

def scanStringBody (r : Chars) : Chars × Chars :=
  scanStringBodyF (r.length + 1) r

/-- Skip the scanner's whitespace (only `'\t'` under `Whitespace = 1 <<
'\t'`), advancing the position past each skipped rune. -/
def skipTabs : Chars → Nat → Chars × Nat
  | [], off => ([], off)
  | c :: r, off => if c = '\t' then skipTabs r (off + 1) else (c :: r, off)

/-- Go `Scanner.Scan` under the package's configuration: skip tabs, then
return EOF, a string literal (on a double quote), or the single rune. -/
def Scanner.scan (s : Scanner) : Token × Scanner :=
  let p := skipTabs s.rest s.offset
  match p.1 with
  | [] => (.eof, ⟨[], p.2⟩)
  | c :: r =>
    if c = '"' then
      let q := scanStringBody r
      (.str ('"' :: q.1), ⟨q.2, p.2 + 1 + q.1.length⟩)
    else (.chr c, ⟨r, p.2 + 1⟩)

/-- Go `Scanner.Peek`: the next raw rune, without consuming and without
whitespace skipping (`none` models `scanner.EOF`). -/
def Scanner.peekCh (s : Scanner) : Option Char := s.rest.head?

/-- The structured errors `ReadFrom`/`Load` can produce, each carrying the
`s.Pos()` captured before the offending `Scan` (modelled as rune offset). -/
inductive Err where
  | sectionNewline (pos : Nat)
  | keyEOF (pos : Nat)
  | keyString (pos : Nat)
deriving Repr, DecidableEq

/-- Result of a fallible reader: success, a parse error, or `spin`, meaning
the fuel ran out — which, with the wrappers' sufficient fuel, happens
exactly when the Go loop runs forever. -/
inductive RRes (α : Type) where
  | ok (a : α)
  | err (e : Err)
  | spin
deriving Repr, DecidableEq

/-- Shared body of the method and free `readSection`: scan until `]`,
skipping `[`, failing on a newline or carriage return.  `scanner.EOF` and
`scanner.String` tokens fall into the default case, where Go's
`bytes.Buffer.WriteRune` on a negative rune writes U+FFFD — and at end of
input the loop never terminates. -/
def readSectionF : Nat → Scanner → Chars → RRes (Chars × Scanner)
  | 0, _, _ => .spin
  | fuel + 1, s, buf =>
    let pos := s.offset
    match s.scan with
    | (.chr c, s') =>
      if c = '[' then readSectionF fuel s' buf
      else if c = ']' then .ok (buf, s')
      else if c = '\n' ∨ c = '\r' then .err (.sectionNewline pos)
      else readSectionF fuel s' (buf ++ [c])
    | (.eof, s') => readSectionF fuel s' (buf ++ [Char.ofNat 0xFFFD])
    | (.str _, s') => readSectionF fuel s' (buf ++ [Char.ofNat 0xFFFD])

def readSection (s : Scanner) : RRes (Chars × Scanner) :=
  readSectionF (s.rest.length + 1) s []

/-- Go `strings.TrimLeft(·, "\"")`: remove every leading quote. -/
def trimLeftQuote : Chars → Chars
  | [] => []
  | c :: r => if c = '"' then trimLeftQuote r else c :: r

/-- Go `strings.TrimRight(strings.TrimLeft(t, "\""), "\"")`: remove every
leading and every trailing double-quote character. -/
def trimQuotes (t : Chars) : Chars :=
  (trimLeftQuote (trimLeftQuote t).reverse).reverse

/-- Shared body of the method and free `readValue`: end of input or a line
feed returns the buffer; a recognized string token returns its text with
all leading/trailing quotes trimmed; carriage returns are dropped; spaces
are dropped while the buffer is empty.  Never fails; always terminates
(modelled with fuel only for uniformity — the EOF case returns). -/
def readValueF : Nat → Scanner → Chars → Option (Chars × Scanner)
  | 0, _, _ => none
  | fuel + 1, s, buf =>
    match s.scan with
    | (.eof, s') => some (buf, s')
    | (.str t, s') => some (trimQuotes t, s')
    | (.chr c, s') =>
      if c = '\n' then some (buf, s')
      else if c = '\r' then readValueF fuel s' buf
      else if c = ' ' then
        if buf = [] then readValueF fuel s' buf
        else readValueF fuel s' (buf ++ [c])
      else readValueF fuel s' (buf ++ [c])

def readValue (s : Scanner) : Option (Chars × Scanner) :=
  readValueF (s.rest.length + 1) s []

/-- Shared body of the method and free `readKey`: skip spaces, accumulate
until `=`; end of input or a recognized string token is an error carrying
the position captured before the `Scan`. -/
def readKeyF : Nat → Scanner → Chars → RRes (Chars × Scanner)
  | 0, _, _ => .spin
  | fuel + 1, s, buf =>
    let pos := s.offset
    match s.scan with
    | (.eof, _) => .err (.keyEOF pos)
    | (.str _, _) => .err (.keyString pos)
    | (.chr c, s') =>
      if c = ' ' then readKeyF fuel s' buf
      else if c = '=' then .ok (buf, s')
      else readKeyF fuel s' (buf ++ [c])

def readKey (s : Scanner) : RRes (Chars × Scanner) :=
  readKeyF (s.rest.length + 1) s []

/-- Shared body of the method and free `readCommentLine`: scan until a line
feed.  There is no end-of-input case, so at EOF the Go loop never
terminates (`none` = out of fuel = divergence). -/
def readCommentLineF : Nat → Scanner → Option Scanner
  | 0, _ => none
  | fuel + 1, s =>
    match s.scan with
    | (.chr c, s') => if c = '\n' then some s' else readCommentLineF fuel s'
    | (.eof, s') => readCommentLineF fuel s'
    | (.str _, s') => readCommentLineF fuel s'

def readCommentLine (s : Scanner) : Option Scanner :=
  readCommentLineF (s.rest.length + 1) s

/-- The store `data map[string]map[string]string`, modelled as an
association list: section name to (key to value). -/
abbrev Sect := List (String × String)
abbrev Store := List (String × Sect)

def alookup {α : Type} (k : String) : List (String × α) → Option α
  | [] => none
  | (k', v) :: t => if k' = k then some v else alookup k t

/-- Go `Get`: empty string when the section is absent, otherwise the inner
map's value (whose zero value is the empty string when the key is absent). -/
def Get (ini : Store) (sec key : String) : String :=
  match alookup sec ini with
  | none => ""
  | some m => (alookup key m).getD ""

/-- Go `Has`: true iff the section exists and the key exists within it. -/
def Has (ini : Store) (sec key : String) : Bool :=
  match alookup sec ini with
  | none => false
  | some m => (alookup key m).isSome

/-- Insert-or-overwrite in the inner map. -/
def insertKV (m : Sect) (k v : String) : Sect :=
  if (alookup k m).isSome then
    m.map (fun e => if e.1 = k then (e.1, v) else e)
  else m ++ [(k, v)]

/-- Go `set` (and `Set`, which merely adds locking): create the section's
map lazily on first use, then insert-or-overwrite the key. -/
def set (ini : Store) (sec k v : String) : Store :=
  if (alookup sec ini).isSome then
    ini.map (fun e => if e.1 = sec then (e.1, insertKV e.2 k v) else e)
  else ini ++ [(sec, insertKV [] k v)]

/-- Outcome of one `ReadFrom` call: the `(int64, error)` pair from the Go
source (`(0, nil)` at EOF, `(-1, err)` on a parse error), or `spin` when the
loop never terminates. -/
inductive RunOut where
  | done (ret : Int)
  | fail (ret : Int) (e : Err)
  | spin
deriving Repr, DecidableEq

/-- The driver loop shared by `(*Ini).ReadFrom` and the free `Load`: peek,
classify, dispatch.  Returns the store as mutated so far together with the
outcome — `ReadFrom` exposes the mutated receiver even on failure, while
`Load` discards the store on failure (see `load`). -/
def runF : Nat → Scanner → String → Store → Store × RunOut
  | 0, _, _, ini => (ini, .spin)
  | fuel + 1, s, cur, ini =>
    match s.peekCh with
    | none => (ini, .done 0)
    | some c =>
      if c = ';' ∨ c = '#' then
        match readCommentLine s with
        | some s' => runF fuel s' cur ini
        | none => (ini, .spin)
      else if c = '\n' ∨ c = '\r' then
        runF fuel (s.scan).2 cur ini
      else if c = '[' then
        match readSection s with
        | .ok (name, s') => runF fuel s' (String.mk name) ini
        | .err e => (ini, .fail (-1) e)
        | .spin => (ini, .spin)
      else
        match readKey s with
        | .ok (k, s') =>
          match readValue s' with
          | some (v, s₂) => runF fuel s₂ cur (set ini cur (String.mk k) (String.mk v))
          | none => (ini, .spin)
        | .err e => (ini, .fail (-1) e)
        | .spin => (ini, .spin)

def initScanner (cs : Chars) : Scanner := ⟨cs, 0⟩

/-- `(*Ini).ReadFrom` on a receiver whose store is `ini`. -/
def readFrom (ini : Store) (cs : Chars) : Store × RunOut :=
  runF (cs.length + 1) (initScanner cs) "" ini

/-- Result of the free `Load`: a store, an error (in which case the Go
function returns `nil` for the store), or divergence. -/
inductive LRes where
  | ok (st : Store)
  | err (e : Err)
  | spin
deriving Repr, DecidableEq

/-- The free `Load`: run the same loop on a fresh store; on error the
partially filled store is discarded (`nil` is returned in Go). -/
def load (cs : Chars) : LRes :=
  match readFrom [] cs with
  | (st, .done _) => .ok st
  | (_, .fail _ e) => .err e
  | (_, .spin) => .spin

def hexDigit (n : Nat) : Char :=
  if n < 10 then Char.ofNat ('0'.toNat + n) else Char.ofNat ('a'.toNat + n - 10)

/-- One character of Go's `%q` (`strconv.Quote`) escaping, modelled
faithfully for ASCII: quote, backslash and the named control escapes are
backslash-escaped, other control bytes become `\xNN`, printable characters
stand for themselves (printable non-ASCII runes, which Go also emits
verbatim, are approximated as verbatim). -/
def quoteChar (c : Char) : Chars :=
  if c = '"' then ['\\', '"']
  else if c = '\\' then ['\\', '\\']
  else if c = '\n' then ['\\', 'n']
  else if c = '\r' then ['\\', 'r']
  else if c = '\t' then ['\\', 't']
  else if c.toNat = 7 then ['\\', 'a']
  else if c.toNat = 8 then ['\\', 'b']
  else if c.toNat = 12 then ['\\', 'f']
  else if c.toNat = 11 then ['\\', 'v']
  else if 0x20 ≤ c.toNat ∧ c.toNat ≤ 0x7e then [c]
  else if c.toNat < 0x80 then
    ['\\', 'x', hexDigit (c.toNat / 16), hexDigit (c.toNat % 16)]
  else [c]

/-- Go `%q` applied to a value string: quoted and escaped. -/
def goQuote (v : String) : Chars :=
  '"' :: (v.data.flatMap quoteChar) ++ ['"']

/-- One `fmt.Fprintf(writer, "%s=%q\n", k, v)` payload. -/
def kvLine (kv : String × String) : Chars :=
  kv.1.data ++ '=' :: (goQuote kv.2 ++ ['\n'])

/-- One `fmt.Fprintf(writer, "[%s]\n", section)` payload. -/
def headerLine (sec : String) : Chars :=
  '[' :: (sec.data ++ [']', '\n'])

/-- State of the underlying `io.Writer`: text accepted so far, the running
byte count `nw`, and the number of write calls made.  A write either
transfers its whole payload (returning its length) or fails writing
nothing — the sink fails at call index `failAt`, if given. -/
structure WriteState where
  out : Chars
  nw : Int
  calls : Nat
deriving Repr, DecidableEq

/-- One `fmt.Fprintf` call against the sink; `false` means the write
errored. -/
def doWrite (failAt : Option Nat) (ws : WriteState) (chunk : Chars) :
    WriteState × Bool :=
  if failAt = some ws.calls then
    (⟨ws.out, ws.nw, ws.calls + 1⟩, false)
  else
    (⟨ws.out ++ chunk, ws.nw + chunk.length, ws.calls + 1⟩, true)

/-- The inner loop of `WriteTo` over one section's keys: write each
`key="value"` line, stopping at the first sink error. -/
def writeKVList (failAt : Option Nat) (ws : WriteState) :
    Sect → WriteState × Bool
  | [] => (ws, true)
  | kv :: t =>
    let p := doWrite failAt ws (kvLine kv)
    if p.2 then writeKVList failAt p.1 t else (p.1, false)

/-- The outer loop of `WriteTo`: skip the default section; for each other
section write its header lazily before the first key (Go's `index == 0`
test), so a section with no keys emits nothing. -/
def writeSections (failAt : Option Nat) (ws : WriteState) :
    Store → WriteState × Bool
  | [] => (ws, true)
  | (sec, kvs) :: t =>
    if sec = "" then writeSections failAt ws t
    else
      match kvs with
      | [] => writeSections failAt ws t
      | _ :: _ =>
        let p := doWrite failAt ws (headerLine sec)
        if p.2 then
          let q := writeKVList failAt p.1 kvs
          if q.2 then writeSections failAt q.1 t else (q.1, false)
        else (p.1, false)

/-- `(*Ini).WriteTo`: the default section's pairs first, then every other
section.  Returns the text accepted by the sink, the byte count `nw`, and
whether the call succeeded (`false` = the sink's error was returned). -/
def writeTo (ini : Store) (failAt : Option Nat) : Chars × Int × Bool :=
  let ws0 : WriteState := ⟨[], 0, 0⟩
  let p :=
    match alookup "" ini with
    | none => (ws0, true)
    | some data => writeKVList failAt ws0 data
  if p.2 then
    let q := writeSections failAt p.1 ini
    (q.1.out, q.1.nw, q.2)
  else (p.1.out, p.1.nw, false)

/-- Claim-side description of the emitted chunks: the default section's
`key="value"` lines, then for every other nonempty section a `[section]`
header followed by its `key="value"` lines; empty sections contribute
nothing. -/
def defaultChunks (ini : Store) : List Chars :=
  ((alookup "" ini).getD []).map kvLine

def sectionChunks (ini : Store) : List Chars :=
  ini.flatMap (fun e =>
    if e.1 = "" then []
    else match e.2 with
      | [] => []
      | _ :: _ => headerLine e.1 :: e.2.map kvLine)

def allChunks (ini : Store) : List Chars :=
  defaultChunks ini ++ sectionChunks ini

/-- Claim-side writer: push the chunks into the sink one by one, stopping
at the first failure. -/
def emitChunks (failAt : Option Nat) (ws : WriteState) :
    List Chars → WriteState × Bool
  | [] => (ws, true)
  | c :: t =>
    let p := doWrite failAt ws c
    if p.2 then emitChunks failAt p.1 t else (p.1, false)

/-- Characters of a key-position run that `readKey` keeps: spaces are
skipped by its own `case tokenSpace`, tabs by the scanner's whitespace
setting. -/
def keyKept : Chars → Chars
  | [] => []
  | c :: r => if c = ' ' ∨ c = '\t' then keyKept r else c :: keyKept r

/-- Characters of a section header that `readSection` keeps: `[` is skipped
by its own first case, tabs by the scanner's whitespace setting. -/
def secKept : Chars → Chars
  | [] => []
  | c :: r => if c = '[' ∨ c = '\t' then secKept r else c :: secKept r

/-- Remove every carriage return (dropped by `readValue`). -/
def stripCR : Chars → Chars
  | [] => []
  | c :: r => if c = '\r' then stripCR r else c :: stripCR r

/-- Remove leading spaces (dropped by `readValue` while its buffer is
empty). -/
def dropLeadingSpaces : Chars → Chars
  | [] => []
  | c :: r => if c = ' ' then dropLeadingSpaces r else c :: r

/-- Value accumulated by `readValue` over an unquoted run, starting from
buffer `buf`: carriage returns vanish, and leading spaces vanish exactly
while the buffer is still empty. -/
def pval (buf run : Chars) : Chars :=
  if buf = [] then dropLeadingSpaces (stripCR run) else buf ++ stripCR run

/-- Spec-side operation for claim C1's wording: strip exactly one leading
and exactly one trailing double-quote character from a token text. -/
def stripOneQuote (t : Chars) : Chars :=
  let u := match t with
    | '"' :: r => r
    | other => other
  match u.reverse with
  | '"' :: r => r.reverse
  | _ => u

/-- The store obtained from the empty store by a list of `Set` operations
(section, key, value). -/
def applyOps (ops : List (String × String × String)) : Store :=
  ops.foldl (fun a op => set a op.1 op.2.1 op.2.2) []

/-- The default-section entry the parse creates: absent when there are no
default keys. -/
def dInit (d : Sect) : Store := if d = [] then [] else [("", d)]

/-- The non-default, nonempty sections, in order: exactly the entries the
serializer emits and the parse re-creates. -/
def keepSections : Store → Store
  | [] => []
  | e :: t => if e.1 = "" ∨ e.2 = [] then keepSections t else e :: keepSections t

/-- The store the parse of the serialized text produces. -/
def parsedOf (st : Store) : Store :=
  dInit ((alookup "" st).getD []) ++ keepSections st

/-- Section-name characters that survive the full round trip: printable
ASCII without the scanner-special `"` and without the reader-special
brackets. -/
def goodSecChar (c : Char) : Prop :=
  0x20 ≤ c.toNat ∧ c.toNat ≤ 0x7e ∧ c ≠ '[' ∧ c ≠ ']' ∧ c ≠ '"'

/-- Key characters that survive the full round trip: printable ASCII,
no space (readKey drops it), none of the dispatch or reader specials. -/
def goodKeyChar (c : Char) : Prop :=
  0x21 ≤ c.toNat ∧ c.toNat ≤ 0x7e ∧ c ≠ '=' ∧ c ≠ '"' ∧ c ≠ ';' ∧ c ≠ '#' ∧
    c ≠ '[' ∧ c ≠ '\\'

/-- Value characters that `%q` leaves verbatim and the string scanner
consumes literally: printable ASCII without quote and backslash. -/
def goodValChar (c : Char) : Prop :=
  0x20 ≤ c.toNat ∧ c.toNat ≤ 0x7e ∧ c ≠ '"' ∧ c ≠ '\\'

instance (c : Char) : Decidable (goodSecChar c) := by
  unfold goodSecChar
  infer_instance

instance (c : Char) : Decidable (goodKeyChar c) := by
  unfold goodKeyChar
  infer_instance

instance (c : Char) : Decidable (goodValChar c) := by
  unfold goodValChar
  infer_instance

/-- A store as `Set`/`Load` build it, with round-trip-safe characters:
distinct section names, distinct keys per section, and section/key/value
characters from the good sets. -/
def goodStore (st : Store) : Prop :=
  (st.map Prod.fst).Nodup ∧
  ∀ e ∈ st, (e.2.map Prod.fst).Nodup ∧ (∀ c ∈ e.1.data, goodSecChar c) ∧
    ∀ kv ∈ e.2, (∀ c ∈ kv.1.data, goodKeyChar c) ∧ (∀ c ∈ kv.2.data, goodValChar c)

instance (st : Store) : Decidable (goodStore st) := by
  unfold goodStore
  infer_instance

/-- The map-iteration-order nondeterminism of the Go serializer: `st'` lists
the same sections as `st` in any order, each with its keys in any order. -/
def StorePerm (st st' : Store) : Prop :=
  ∃ stm, st.Perm stm ∧ List.Forall₂ (fun a b => a.1 = b.1 ∧ a.2.Perm b.2) stm st'

/-! ## Scanner lemmas -/

theorem skipTabs_cons_ne (c : Char) (r : Chars) (off : Nat) (h : c ≠ '\t') :
    skipTabs (c :: r) off = (c :: r, off) := by
  simp [skipTabs, h]

theorem scan_nil (off : Nat) :
    Scanner.scan ⟨[], off⟩ = (.eof, ⟨[], off⟩) := rfl

theorem scan_tab (r : Chars) (off : Nat) :
    Scanner.scan ⟨'\t' :: r, off⟩ = Scanner.scan ⟨r, off + 1⟩ := rfl

theorem scan_quote (r : Chars) (off : Nat) :
    Scanner.scan ⟨'"' :: r, off⟩ =
      (.str ('"' :: (scanStringBody r).1),
        ⟨(scanStringBody r).2, off + 1 + (scanStringBody r).1.length⟩) := by
  simp [Scanner.scan, skipTabs]

theorem scan_chr (c : Char) (r : Chars) (off : Nat) (h1 : c ≠ '\t')
    (h2 : c ≠ '"') :
    Scanner.scan ⟨c :: r, off⟩ = (.chr c, ⟨r, off + 1⟩) := by
  simp [Scanner.scan, skipTabs, h1, h2]

theorem scanStringBodyF_plain (v : Chars)
    (hv : ∀ c ∈ v, c ≠ '"' ∧ c ≠ '\\' ∧ c ≠ '\n') :
    ∀ (f : Nat) (rest : Chars), v.length < f →
      scanStringBodyF f (v ++ '"' :: rest) = (v ++ ['"'], rest) := by
  induction v with
  | nil =>
    intro f rest hf
    match f, hf with
    | g + 1, _ => simp [scanStringBodyF]
  | cons c v ih =>
    intro f rest hf
    match f, hf with
    | g + 1, hf =>
      obtain ⟨h1, h2, h3⟩ := hv c (List.mem_cons_self c v)
      have ih' := ih (fun d hd => hv d (List.mem_cons_of_mem c hd)) g rest
        (by simpa using Nat.lt_of_succ_lt_succ hf)
      simp [scanStringBodyF, h1, h2, h3, ih']

theorem scanStringBody_plain (v : Chars) (rest : Chars)
    (hv : ∀ c ∈ v, c ≠ '"' ∧ c ≠ '\\' ∧ c ≠ '\n') :
    scanStringBody (v ++ '"' :: rest) = (v ++ ['"'], rest) := by
  have := scanStringBodyF_plain v hv ((v ++ '"' :: rest).length + 1) rest
    (by simp; omega)
  simpa [scanStringBody] using this

theorem trimLeftQuote_of_ne (l : Chars) (h : ∀ c ∈ l, c ≠ '"') :
    trimLeftQuote l = l := by
  cases l with
  | nil => rfl
  | cons c r => simp [trimLeftQuote, h c (List.mem_cons_self c r)]

theorem trimQuotes_wrap (v : Chars) (hv : ∀ c ∈ v, c ≠ '"') :
    trimQuotes ('"' :: (v ++ ['"'])) = v := by
  have h1 : trimLeftQuote ('"' :: (v ++ ['"'])) = trimLeftQuote (v ++ ['"']) := by
    simp [trimLeftQuote]
  cases v with
  | nil => simp [trimQuotes, trimLeftQuote]
  | cons c w =>
    have hc : c ≠ '"' := hv c (List.mem_cons_self c w)
    have h2 : trimLeftQuote ('"' :: (c :: w ++ ['"'])) = c :: (w ++ ['"']) := by
      simp [trimLeftQuote, hc]
    have h3 : trimLeftQuote ((c :: (w ++ ['"'])).reverse) = (c :: w).reverse := by
      have e : (c :: (w ++ ['"'])).reverse = '"' :: (c :: w).reverse := by simp
      rw [e]
      have e2 : trimLeftQuote ('"' :: (c :: w).reverse) =
          trimLeftQuote ((c :: w).reverse) := by
        simp [trimLeftQuote]
      rw [e2]
      exact trimLeftQuote_of_ne _ (fun d hd => hv d (by simpa using List.mem_reverse.mp hd))
    simp only [trimQuotes]
    rw [h2, h3, List.reverse_reverse]

/-! ## readValue lemmas -/

theorem readValue_str (s s' : Scanner) (t : Chars)
    (h : s.scan = (.str t, s')) :
    readValue s = some (trimQuotes t, s') := by
  simp [readValue, readValueF, h]

theorem readValue_quoted (v rest : Chars) (off : Nat)
    (hv : ∀ c ∈ v, c ≠ '"' ∧ c ≠ '\\' ∧ c ≠ '\n') :
    readValue ⟨'"' :: (v ++ '"' :: rest), off⟩ =
      some (v, ⟨rest, off + v.length + 2⟩) := by
  have hs : Scanner.scan ⟨'"' :: (v ++ '"' :: rest), off⟩ =
      (.str ('"' :: (v ++ ['"'])), ⟨rest, off + v.length + 2⟩) := by
    rw [scan_quote, scanStringBody_plain v rest hv]
    simp
    omega
  rw [readValue_str _ _ _ hs, trimQuotes_wrap v (fun c hc => (hv c hc).1)]

theorem pval_nil (buf : Chars) : pval buf [] = buf := by
  cases buf <;> simp [pval, stripCR, dropLeadingSpaces]

theorem pval_cr (buf r : Chars) : pval buf ('\r' :: r) = pval buf r := by
  cases buf <;> simp [pval, stripCR]

theorem pval_space_nil (r : Chars) : pval [] (' ' :: r) = pval [] r := by
  simp [pval, stripCR, dropLeadingSpaces]

theorem pval_push (buf r : Chars) (c : Char) (hcr : c ≠ '\r')
    (hcs : buf = [] → c ≠ ' ') :
    pval (buf ++ [c]) r = pval buf (c :: r) := by
  cases hb : buf with
  | nil => simp [pval, stripCR, dropLeadingSpaces, hcr, hcs hb]
  | cons b bs => simp [pval, stripCR, hcr]

theorem readValueF_run (run : Chars)
    (hr : ∀ c ∈ run, c ≠ '"' ∧ c ≠ '\t' ∧ c ≠ '\n') :
    ∀ (f : Nat) (buf rest : Chars) (off : Nat), run.length < f →
      readValueF f ⟨run ++ '\n' :: rest, off⟩ buf =
        some (pval buf run, ⟨rest, off + run.length + 1⟩) := by
  induction run with
  | nil =>
    intro f buf rest off hf
    match f, hf with
    | g + 1, _ =>
      have hs := scan_chr '\n' rest off (by decide) (by decide)
      simp [readValueF, hs, pval_nil]
  | cons c run ih =>
    intro f buf rest off hf
    match f, hf with
    | g + 1, hf =>
      obtain ⟨h1, h2, h3⟩ := hr c (List.mem_cons_self c run)
      have hs := scan_chr c (run ++ '\n' :: rest) off h2 h1
      have hstep : ∀ buf', readValueF g ⟨run ++ '\n' :: rest, off + 1⟩ buf' =
          some (pval buf' run, ⟨rest, off + 1 + run.length + 1⟩) :=
        fun buf' => ih (fun d hd => hr d (List.mem_cons_of_mem c hd)) g buf' rest
          (off + 1) (by simp at hf; omega)
      by_cases hcr : c = '\r'
      · subst hcr
        rw [List.cons_append]
        simp [readValueF, hs, hstep, pval_cr]
        omega
      · by_cases hsp : c = ' '
        · subst hsp
          rw [List.cons_append]
          cases hb : buf with
          | nil =>
            simp [readValueF, hs, hstep, pval_space_nil]
            omega
          | cons b bs =>
            have hp := pval_push (b :: bs) run ' ' (by decide) (by simp)
            simp [readValueF, hs, hstep]
            exact ⟨hp, by omega⟩
        · rw [List.cons_append]
          have hp := pval_push buf run c hcr (fun _ => hsp)
          simp [readValueF, hs, hstep, hp, h3, hcr, hsp]
          omega

theorem readValueF_run_eof (run : Chars)
    (hr : ∀ c ∈ run, c ≠ '"' ∧ c ≠ '\t' ∧ c ≠ '\n') :
    ∀ (f : Nat) (buf : Chars) (off : Nat), run.length < f →
      readValueF f ⟨run, off⟩ buf =
        some (pval buf run, ⟨[], off + run.length⟩) := by
  induction run with
  | nil =>
    intro f buf off hf
    match f, hf with
    | g + 1, _ => simp [readValueF, scan_nil, pval_nil]
  | cons c run ih =>
    intro f buf off hf
    match f, hf with
    | g + 1, hf =>
      obtain ⟨h1, h2, h3⟩ := hr c (List.mem_cons_self c run)
      have hs := scan_chr c run off h2 h1
      have hstep : ∀ buf', readValueF g ⟨run, off + 1⟩ buf' =
          some (pval buf' run, ⟨[], off + 1 + run.length⟩) :=
        fun buf' => ih (fun d hd => hr d (List.mem_cons_of_mem c hd)) g buf'
          (off + 1) (by simp at hf; omega)
      by_cases hcr : c = '\r'
      · subst hcr
        simp [readValueF, hs, hstep, pval_cr]
        omega
      · by_cases hsp : c = ' '
        · subst hsp
          cases hb : buf with
          | nil =>
            simp [readValueF, hs, hstep, pval_space_nil]
            omega
          | cons b bs =>
            have hp := pval_push (b :: bs) run ' ' (by decide) (by simp)
            simp [readValueF, hs, hstep]
            exact ⟨hp, by omega⟩
        · have hp := pval_push buf run c hcr (fun _ => hsp)
          simp [readValueF, hs, hstep, hp, h3, hcr, hsp]
          omega

theorem readValue_run (run rest : Chars) (off : Nat)
    (hr : ∀ c ∈ run, c ≠ '"' ∧ c ≠ '\t' ∧ c ≠ '\n') :
    readValue ⟨run ++ '\n' :: rest, off⟩ =
      some (pval [] run, ⟨rest, off + run.length + 1⟩) := by
  have := readValueF_run run hr ((run ++ '\n' :: rest).length + 1) [] rest off
    (by simp; omega)
  simpa [readValue] using this

theorem readValue_run_eof (run : Chars) (off : Nat)
    (hr : ∀ c ∈ run, c ≠ '"' ∧ c ≠ '\t' ∧ c ≠ '\n') :
    readValue ⟨run, off⟩ = some (pval [] run, ⟨[], off + run.length⟩) := by
  have := readValueF_run_eof run hr (run.length + 1) [] off (by omega)
  simpa [readValue] using this

/-! ## readKey lemmas -/

theorem readKeyF_tab_ok (f : Nat) (cs : Chars) (off : Nat) (buf : Chars)
    (x : Chars × Scanner)
    (h : readKeyF (f + 1) ⟨cs, off + 1⟩ buf = .ok x) :
    readKeyF (f + 1) ⟨'\t' :: cs, off⟩ buf = .ok x := by
  simp only [readKeyF] at h ⊢
  rw [scan_tab]
  rcases hs : Scanner.scan ⟨cs, off + 1⟩ with ⟨tok, s'⟩
  rw [hs] at h
  cases tok with
  | eof => simp at h
  | str t => simp at h
  | chr c => exact h

theorem readKeyF_ok (pre : Chars) (hp : ∀ c ∈ pre, c ≠ '=' ∧ c ≠ '"') :
    ∀ (f : Nat) (buf rest : Chars) (off : Nat), pre.length < f →
      readKeyF f ⟨pre ++ '=' :: rest, off⟩ buf =
        .ok (buf ++ keyKept pre, ⟨rest, off + pre.length + 1⟩) := by
  induction pre with
  | nil =>
    intro f buf rest off hf
    match f, hf with
    | g + 1, _ =>
      have hs := scan_chr '=' rest off (by decide) (by decide)
      simp [readKeyF, hs, keyKept]
  | cons c pre ih =>
    intro f buf rest off hf
    match f, hf with
    | g + 1, hf =>
      obtain ⟨h1, h2⟩ := hp c (List.mem_cons_self c pre)
      have hrec := ih (fun d hd => hp d (List.mem_cons_of_mem c hd))
      by_cases htab : c = '\t'
      · subst htab
        have hx := hrec (g + 1) buf rest (off + 1) (by simp at hf ⊢; omega)
        have ht := readKeyF_tab_ok g (pre ++ '=' :: rest) off buf _ hx
        rw [List.cons_append, ht]
        have hk : keyKept ('\t' :: pre) = keyKept pre := by simp [keyKept]
        rw [hk]
        simp
        omega
      · have hs := scan_chr c (pre ++ '=' :: rest) off htab h2
        have hstep : ∀ buf', readKeyF g ⟨pre ++ '=' :: rest, off + 1⟩ buf' =
            .ok (buf' ++ keyKept pre, ⟨rest, off + 1 + pre.length + 1⟩) :=
          fun buf' => hrec g buf' rest (off + 1) (by simp at hf; omega)
        by_cases hsp : c = ' '
        · subst hsp
          rw [List.cons_append]
          simp [readKeyF, hs, hstep, keyKept]
          omega
        · rw [List.cons_append]
          have hk : keyKept (c :: pre) = c :: keyKept pre := by
            simp [keyKept, hsp, htab]
          simp [readKeyF, hs, hstep, h1, hsp, hk]
          omega

theorem readKeyF_eof (pre : Chars)
    (hp : ∀ c ∈ pre, c ≠ '=' ∧ c ≠ '"' ∧ c ≠ '\t') :
    ∀ (f : Nat) (buf : Chars) (off : Nat), pre.length < f →
      readKeyF f ⟨pre, off⟩ buf = .err (.keyEOF (off + pre.length)) := by
  induction pre with
  | nil =>
    intro f buf off hf
    match f, hf with
    | g + 1, _ => simp [readKeyF, scan_nil]
  | cons c pre ih =>
    intro f buf off hf
    match f, hf with
    | g + 1, hf =>
      obtain ⟨h1, h2, h3⟩ := hp c (List.mem_cons_self c pre)
      have hs := scan_chr c pre off h3 h2
      have hstep : ∀ buf', readKeyF g ⟨pre, off + 1⟩ buf' =
          .err (.keyEOF (off + 1 + pre.length)) :=
        fun buf' => ih (fun d hd => hp d (List.mem_cons_of_mem c hd)) g buf'
          (off + 1) (by simp at hf; omega)
      by_cases hsp : c = ' '
      · subst hsp
        simp [readKeyF, hs, hstep]
        omega
      · simp [readKeyF, hs, hstep, h1, hsp]
        omega

theorem readKeyF_str (pre : Chars)
    (hp : ∀ c ∈ pre, c ≠ '=' ∧ c ≠ '"' ∧ c ≠ '\t') :
    ∀ (f : Nat) (buf rest : Chars) (off : Nat), pre.length < f →
      readKeyF f ⟨pre ++ '"' :: rest, off⟩ buf =
        .err (.keyString (off + pre.length)) := by
  induction pre with
  | nil =>
    intro f buf rest off hf
    match f, hf with
    | g + 1, _ => simp [readKeyF, scan_quote]
  | cons c pre ih =>
    intro f buf rest off hf
    match f, hf with
    | g + 1, hf =>
      obtain ⟨h1, h2, h3⟩ := hp c (List.mem_cons_self c pre)
      have hs := scan_chr c (pre ++ '"' :: rest) off h3 h2
      have hstep : ∀ buf', readKeyF g ⟨pre ++ '"' :: rest, off + 1⟩ buf' =
          .err (.keyString (off + 1 + pre.length)) :=
        fun buf' => ih (fun d hd => hp d (List.mem_cons_of_mem c hd)) g buf' rest
          (off + 1) (by simp at hf; omega)
      by_cases hsp : c = ' '
      · subst hsp
        rw [List.cons_append]
        simp [readKeyF, hs, hstep]
        omega
      · rw [List.cons_append]
        simp [readKeyF, hs, hstep, h1, hsp]
        omega

theorem readKey_ok (pre rest : Chars) (off : Nat)
    (hp : ∀ c ∈ pre, c ≠ '=' ∧ c ≠ '"') :
    readKey ⟨pre ++ '=' :: rest, off⟩ =
      .ok (keyKept pre, ⟨rest, off + pre.length + 1⟩) := by
  have := readKeyF_ok pre hp ((pre ++ '=' :: rest).length + 1) [] rest off
    (by simp; omega)
  simpa [readKey] using this

theorem readKey_eof (pre : Chars) (off : Nat)
    (hp : ∀ c ∈ pre, c ≠ '=' ∧ c ≠ '"' ∧ c ≠ '\t') :
    readKey ⟨pre, off⟩ = .err (.keyEOF (off + pre.length)) := by
  have := readKeyF_eof pre hp (pre.length + 1) [] off (by omega)
  simpa [readKey] using this

theorem readKey_str (pre rest : Chars) (off : Nat)
    (hp : ∀ c ∈ pre, c ≠ '=' ∧ c ≠ '"' ∧ c ≠ '\t') :
    readKey ⟨pre ++ '"' :: rest, off⟩ = .err (.keyString (off + pre.length)) := by
  have := readKeyF_str pre hp ((pre ++ '"' :: rest).length + 1) [] rest off
    (by simp; omega)
  simpa [readKey] using this

/-! ## readSection lemmas -/

theorem readSectionF_tab_ok (f : Nat) (cs : Chars) (off : Nat) (buf : Chars)
    (x : Chars × Scanner)
    (h : readSectionF (f + 1) ⟨cs, off + 1⟩ buf = .ok x) :
    readSectionF (f + 1) ⟨'\t' :: cs, off⟩ buf = .ok x := by
  simp only [readSectionF] at h ⊢
  rw [scan_tab]
  rcases hs : Scanner.scan ⟨cs, off + 1⟩ with ⟨tok, s'⟩
  rw [hs] at h
  cases tok with
  | eof => exact h
  | str t => exact h
  | chr c =>
    by_cases hbr : c = '['
    · simp only [if_pos hbr] at h ⊢
      exact h
    · by_cases hcl : c = ']'
      · simp only [if_neg hbr, if_pos hcl] at h ⊢
        exact h
      · by_cases hnl : c = '\n' ∨ c = '\r'
        · simp only [if_neg hbr, if_neg hcl, if_pos hnl] at h
          simp at h
        · simp only [if_neg hbr, if_neg hcl, if_neg hnl] at h ⊢
          exact h

theorem readSectionF_ok (inner : Chars)
    (hin : ∀ c ∈ inner, c ≠ ']' ∧ c ≠ '\n' ∧ c ≠ '\r' ∧ c ≠ '"') :
    ∀ (f : Nat) (buf rest : Chars) (off : Nat), inner.length < f →
      readSectionF f ⟨inner ++ ']' :: rest, off⟩ buf =
        .ok (buf ++ secKept inner, ⟨rest, off + inner.length + 1⟩) := by
  induction inner with
  | nil =>
    intro f buf rest off hf
    match f, hf with
    | g + 1, _ =>
      have hs := scan_chr ']' rest off (by decide) (by decide)
      simp [readSectionF, hs, secKept]
  | cons c inner ih =>
    intro f buf rest off hf
    match f, hf with
    | g + 1, hf =>
      obtain ⟨h1, h2, h3, h4⟩ := hin c (List.mem_cons_self c inner)
      have hrec := ih (fun d hd => hin d (List.mem_cons_of_mem c hd))
      by_cases htab : c = '\t'
      · subst htab
        have hx := hrec (g + 1) buf rest (off + 1) (by simp at hf ⊢; omega)
        have ht := readSectionF_tab_ok g (inner ++ ']' :: rest) off buf _ hx
        rw [List.cons_append, ht]
        have hk : secKept ('\t' :: inner) = secKept inner := by simp [secKept]
        rw [hk]
        simp
        omega
      · have hs := scan_chr c (inner ++ ']' :: rest) off htab h4
        have hstep : ∀ buf', readSectionF g ⟨inner ++ ']' :: rest, off + 1⟩ buf' =
            .ok (buf' ++ secKept inner, ⟨rest, off + 1 + inner.length + 1⟩) :=
          fun buf' => hrec g buf' rest (off + 1) (by simp at hf; omega)
        by_cases hbr : c = '['
        · subst hbr
          rw [List.cons_append]
          simp [readSectionF, hs, hstep, secKept]
          omega
        · rw [List.cons_append]
          have hk : secKept (c :: inner) = c :: secKept inner := by
            simp [secKept, hbr, htab]
          simp [readSectionF, hs, hstep, h1, h2, h3, hbr, hk]
          omega

theorem readSectionF_nl (inner : Chars)
    (hin : ∀ c ∈ inner, c ≠ ']' ∧ c ≠ '\n' ∧ c ≠ '\r' ∧ c ≠ '"' ∧ c ≠ '\t')
    (c0 : Char) (hc0 : c0 = '\n' ∨ c0 = '\r') :
    ∀ (f : Nat) (buf rest : Chars) (off : Nat), inner.length < f →
      readSectionF f ⟨inner ++ c0 :: rest, off⟩ buf =
        .err (.sectionNewline (off + inner.length)) := by
  induction inner with
  | nil =>
    intro f buf rest off hf
    match f, hf with
    | g + 1, _ =>
      have ht : c0 ≠ '\t' := by rcases hc0 with h | h <;> subst h <;> decide
      have hq : c0 ≠ '"' := by rcases hc0 with h | h <;> subst h <;> decide
      have hbr : c0 ≠ '[' := by rcases hc0 with h | h <;> subst h <;> decide
      have hcl : c0 ≠ ']' := by rcases hc0 with h | h <;> subst h <;> decide
      have hs := scan_chr c0 rest off ht hq
      simp [readSectionF, hs, hbr, hcl, hc0]
  | cons c inner ih =>
    intro f buf rest off hf
    match f, hf with
    | g + 1, hf =>
      obtain ⟨h1, h2, h3, h4, h5⟩ := hin c (List.mem_cons_self c inner)
      have hs := scan_chr c (inner ++ c0 :: rest) off h5 h4
      have hstep : ∀ buf', readSectionF g ⟨inner ++ c0 :: rest, off + 1⟩ buf' =
          .err (.sectionNewline (off + 1 + inner.length)) :=
        fun buf' => ih (fun d hd => hin d (List.mem_cons_of_mem c hd)) g
          buf' rest (off + 1) (by simp at hf; omega)
      by_cases hbr : c = '['
      · subst hbr
        rw [List.cons_append]
        simp [readSectionF, hs, hstep]
        omega
      · rw [List.cons_append]
        simp [readSectionF, hs, hstep, h1, h2, h3, hbr]
        omega

theorem readSection_ok (inner rest : Chars) (off : Nat)
    (hin : ∀ c ∈ inner, c ≠ ']' ∧ c ≠ '\n' ∧ c ≠ '\r' ∧ c ≠ '"') :
    readSection ⟨inner ++ ']' :: rest, off⟩ =
      .ok (secKept inner, ⟨rest, off + inner.length + 1⟩) := by
  have := readSectionF_ok inner hin ((inner ++ ']' :: rest).length + 1) [] rest
    off (by simp; omega)
  simpa [readSection] using this

theorem readSection_nl (inner rest : Chars) (off : Nat)
    (hin : ∀ c ∈ inner, c ≠ ']' ∧ c ≠ '\n' ∧ c ≠ '\r' ∧ c ≠ '"' ∧ c ≠ '\t')
    (c0 : Char) (hc0 : c0 = '\n' ∨ c0 = '\r') :
    readSection ⟨inner ++ c0 :: rest, off⟩ =
      .err (.sectionNewline (off + inner.length)) := by
  have := readSectionF_nl inner hin c0 hc0 ((inner ++ c0 :: rest).length + 1) []
    rest off (by simp; omega)
  simpa [readSection] using this

/-! ## Divergence helper lemmas (comment / section loops at end of input) -/

theorem readCommentLineF_empty (off : Nat) :
    ∀ fuel, readCommentLineF fuel ⟨[], off⟩ = none := by
  intro fuel
  induction fuel with
  | zero => rfl
  | succ g ih => simp [readCommentLineF, scan_nil, ih]

theorem readCommentLineF_hash :
    ∀ fuel, readCommentLineF fuel ⟨['#'], 0⟩ = none := by
  intro fuel
  match fuel with
  | 0 => rfl
  | g + 1 =>
    have hs := scan_chr '#' [] 0 (by decide) (by decide)
    simp [readCommentLineF, hs, readCommentLineF_empty]

theorem readSectionF_empty (off : Nat) :
    ∀ fuel buf, readSectionF fuel ⟨[], off⟩ buf = .spin := by
  intro fuel
  induction fuel with
  | zero => intro buf; rfl
  | succ g ih => intro buf; simp [readSectionF, scan_nil, ih]

theorem readSectionF_x (off : Nat) :
    ∀ fuel buf, readSectionF fuel ⟨['x'], off⟩ buf = .spin := by
  intro fuel buf
  match fuel with
  | 0 => rfl
  | g + 1 =>
    have hs := scan_chr 'x' [] off (by decide) (by decide)
    simp [readSectionF, hs, readSectionF_empty]

theorem readSectionF_bracket_x :
    ∀ fuel, readSectionF fuel ⟨['[', 'x'], 0⟩ [] = .spin := by
  intro fuel
  match fuel with
  | 0 => rfl
  | g + 1 =>
    have hs := scan_chr '[' ['x'] 0 (by decide) (by decide)
    simp [readSectionF, hs, readSectionF_x]

/-! ## Claim theorems: C1, C2, C6, C7, C8 -/

/-- C1, counterexample: on the recognized quoted-string token with text
`"a\""` (inner content ends with an escaped quote), the stored value is
`a\` — the code strips ALL trailing quote characters — whereas stripping
exactly one leading and one trailing quote would give `a\"`.  The claim is
false at this input. -/
theorem C1_counterexample :
    Scanner.scan ⟨['"', 'a', '\\', '"', '"'], 0⟩ =
      (.str ['"', 'a', '\\', '"', '"'], ⟨[], 5⟩) ∧
    readValue ⟨['"', 'a', '\\', '"', '"'], 0⟩ = some (['a', '\\'], ⟨[], 5⟩) ∧
    (['a', '\\'] : Chars) ≠ stripOneQuote ['"', 'a', '\\', '"', '"'] := by
  decide

/-- C1 (amended): when the value reader encounters a recognized
quoted-string token, the value stored is the token text with ALL leading and
ALL trailing double-quote characters stripped (`strings.TrimLeft` then
`strings.TrimRight` with cutset `"`), and nothing else changed; in
particular, for a token whose inner content contains no quote character the
content is returned verbatim — embedded backslashes are preserved and no
unescaping happens — and the read terminates immediately. -/
theorem C1_value_string_strip (s s' : Scanner) (t : Chars)
    (h : s.scan = (.str t, s')) :
    readValue s = some (trimQuotes t, s') ∧
    ∀ u : Chars, (∀ c ∈ u, c ≠ '"') → trimQuotes ('"' :: (u ++ ['"'])) = u :=
  ⟨readValue_str s s' t h, fun u hu => trimQuotes_wrap u hu⟩

/-- C1 witness: the token `"a\nb"` is stripped to `a\nb` with the backslash
escape preserved verbatim. -/
theorem C1_witness :
    readValue ⟨['"', 'a', '\\', 'n', 'b', '"'], 0⟩ =
      some (['a', '\\', 'n', 'b'], ⟨[], 6⟩) := by
  have h := (C1_value_string_strip ⟨['"', 'a', '\\', 'n', 'b', '"'], 0⟩
    ⟨[], 6⟩ ['"', 'a', '\\', 'n', 'b', '"'] (by decide)).1
  simpa [show trimQuotes ['"', 'a', '\\', 'n', 'b', '"'] = ['a', '\\', 'n', 'b']
    from by decide] using h

/-- C2: the claim says every finite input terminates, but the code loops
forever on `"#"` (a comment with no trailing newline: `readCommentLine` has
no end-of-input case, and `Scan` returns EOF forever) and on `"[x"` (a
section header interrupted by end of input: the EOF token falls into
`readSection`'s default case, which appends U+FFFD and loops).  No amount
of fuel makes either loop, or the enclosing `ReadFrom`/`Load`, finish. -/
theorem C2_divergence :
    (∀ fuel : Nat, readCommentLineF fuel ⟨['#'], 0⟩ = none) ∧
    (∀ fuel : Nat, readSectionF fuel ⟨['[', 'x'], 0⟩ [] = .spin) ∧
    readFrom [] ['#'] = ([], .spin) ∧
    readFrom [] ['[', 'x'] = ([], .spin) := by
  refine ⟨readCommentLineF_hash, readSectionF_bracket_x, by decide, by decide⟩

/-- C6, counterexample: in the header `[a⇥b]` (with a tab between `a` and
`b`) the tab is skipped by the scanner, so the section name is `ab`, not the
claimed verbatim accumulation `a⇥b`. -/
theorem C6_counterexample :
    readSection ⟨['[', 'a', '\t', 'b', ']'], 0⟩ = .ok (['a', 'b'], ⟨[], 5⟩) ∧
    (['a', 'b'] : Chars) ≠ ['a', '\t', 'b'] := by decide

/-- C6 (amended): for every input beginning with `[`, the reader consumes
characters until `]` and the characters between them become the section
name, except that `[` is ignored AND tab characters are skipped by the
scanner's whitespace setting (headers containing a double quote engage the
scanner's string-token mode and are excluded); a newline or carriage return
before the closing `]` fails with a SyntaxError carrying the offset at
which the newline occurred (stated for tab-free headers, where the captured
position is exactly the newline's offset). -/
theorem C6_section_reading :
    (∀ (inner rest : Chars) (off : Nat),
      (∀ c ∈ inner, c ≠ ']' ∧ c ≠ '\n' ∧ c ≠ '\r' ∧ c ≠ '"') →
      readSection ⟨'[' :: (inner ++ ']' :: rest), off⟩ =
        .ok (secKept inner, ⟨rest, off + inner.length + 2⟩)) ∧
    (∀ (inner rest : Chars) (off : Nat) (c0 : Char),
      (∀ c ∈ inner, c ≠ ']' ∧ c ≠ '\n' ∧ c ≠ '\r' ∧ c ≠ '"' ∧ c ≠ '\t') →
      (c0 = '\n' ∨ c0 = '\r') →
      readSection ⟨'[' :: (inner ++ c0 :: rest), off⟩ =
        .err (.sectionNewline (off + inner.length + 1))) := by
  constructor
  · intro inner rest off hin
    have hin' : ∀ c ∈ ('[' :: inner), c ≠ ']' ∧ c ≠ '\n' ∧ c ≠ '\r' ∧ c ≠ '"' := by
      intro c hc
      rcases List.mem_cons.mp hc with h | h
      · subst h; exact ⟨by decide, by decide, by decide, by decide⟩
      · exact hin c h
    have h := readSection_ok ('[' :: inner) rest off hin'
    rw [List.cons_append] at h
    rw [h]
    have hsk : secKept ('[' :: inner) = secKept inner := by simp [secKept]
    rw [hsk]
    simp
    omega
  · intro inner rest off c0 hin hc0
    have hin' : ∀ c ∈ ('[' :: inner),
        c ≠ ']' ∧ c ≠ '\n' ∧ c ≠ '\r' ∧ c ≠ '"' ∧ c ≠ '\t' := by
      intro c hc
      rcases List.mem_cons.mp hc with h | h
      · subst h
        exact ⟨by decide, by decide, by decide, by decide, by decide⟩
      · exact hin c h
    have h := readSection_nl ('[' :: inner) rest off hin' c0 hc0
    rw [List.cons_append] at h
    rw [h]
    simp
    omega

/-- C6 witness: `[a[b]` parses to section `ab` (the inner `[` ignored) at
offset 5, and `[c⏎` fails with the error at offset 2, where the newline
occurred. -/
theorem C6_witness :
    readSection ⟨['[', 'a', '[', 'b', ']'], 0⟩ = .ok (['a', 'b'], ⟨[], 5⟩) ∧
    readSection ⟨['[', 'c', '\n'], 0⟩ = .err (.sectionNewline 2) := by
  constructor
  · have h := C6_section_reading.1 ['a', '[', 'b'] [] 0 (by decide)
    simpa [secKept] using h
  · have h := C6_section_reading.2 ['c'] [] 0 '\n' (by decide) (Or.inl rfl)
    simpa using h

/-- C7, counterexample: in key position the input `a⇥b=` (with a tab)
produces the key `ab` — the scanner skips tabs as whitespace — whereas the
claim (only space characters dropped, all other characters accumulated)
predicts `a⇥b`. -/
theorem C7_counterexample :
    readKey ⟨['a', '\t', 'b', '='], 0⟩ = .ok (['a', 'b'], ⟨[], 4⟩) ∧
    (['a', 'b'] : Chars) ≠ ['a', '\t', 'b'] := by decide

/-- C7 (amended): in key position the reader drops space AND tab characters
(spaces by its own skip case, tabs by the scanner's whitespace setting) and
accumulates all other characters until `=` is consumed; it fails with a
SyntaxError carrying the position if end of input is reached before `=`,
and likewise if a recognized quoted-string token is encountered before `=`
(both error cases stated for tab-free prefixes, where the captured position
is exactly the offset after the consumed prefix). -/
theorem C7_key_reading :
    (∀ (pre rest : Chars) (off : Nat), (∀ c ∈ pre, c ≠ '=' ∧ c ≠ '"') →
      readKey ⟨pre ++ '=' :: rest, off⟩ =
        .ok (keyKept pre, ⟨rest, off + pre.length + 1⟩)) ∧
    (∀ (pre : Chars) (off : Nat), (∀ c ∈ pre, c ≠ '=' ∧ c ≠ '"' ∧ c ≠ '\t') →
      readKey ⟨pre, off⟩ = .err (.keyEOF (off + pre.length))) ∧
    (∀ (pre rest : Chars) (off : Nat), (∀ c ∈ pre, c ≠ '=' ∧ c ≠ '"' ∧ c ≠ '\t') →
      readKey ⟨pre ++ '"' :: rest, off⟩ = .err (.keyString (off + pre.length))) :=
  ⟨readKey_ok, readKey_eof, readKey_str⟩

/-- C7 witness: ` a b=c` gives key `ab`; `k` alone fails at end of input
with position 1; `k"x` fails on the quoted-string token with position 1. -/
theorem C7_witness :
    readKey ⟨[' ', 'a', ' ', 'b', '=', 'c'], 0⟩ = .ok (['a', 'b'], ⟨['c'], 5⟩) ∧
    readKey ⟨['k'], 0⟩ = .err (.keyEOF 1) ∧
    readKey ⟨['k', '"', 'x'], 0⟩ = .err (.keyString 1) := by
  refine ⟨?_, ?_, ?_⟩
  · have h := C7_key_reading.1 [' ', 'a', ' ', 'b'] ['c'] 0 (by decide)
    simpa [keyKept] using h
  · have h := C7_key_reading.2.1 ['k'] 0 (by decide)
    simpa using h
  · have h := C7_key_reading.2.2 ['k'] ['x'] 0 (by decide)
    simpa using h

/-- C8: over an unquoted value run (no quote, tab or line feed characters in
the run), reading terminates at the line feed — or at end of input —
returning the accumulated characters: every carriage return is silently
dropped, spaces are dropped while the accumulation is still empty, and
spaces are preserved once any non-space character has been accumulated, so
interior and trailing spaces survive verbatim. -/
theorem C8_unquoted_value :
    (∀ (run rest : Chars) (off : Nat),
      (∀ c ∈ run, c ≠ '"' ∧ c ≠ '\t' ∧ c ≠ '\n') →
      readValue ⟨run ++ '\n' :: rest, off⟩ =
        some (dropLeadingSpaces (stripCR run), ⟨rest, off + run.length + 1⟩)) ∧
    (∀ (run : Chars) (off : Nat),
      (∀ c ∈ run, c ≠ '"' ∧ c ≠ '\t' ∧ c ≠ '\n') →
      readValue ⟨run, off⟩ =
        some (dropLeadingSpaces (stripCR run), ⟨[], off + run.length⟩)) := by
  constructor
  · intro run rest off hr
    have h := readValue_run run rest off hr
    simpa [pval] using h
  · intro run off hr
    have h := readValue_run_eof run off hr
    simpa [pval] using h

/-- C8 witness: `v   ⏎` keeps the trailing spaces (value `v   `), and
` ⏎x ` at end of input drops the leading space and carriage return but
keeps the trailing space (value `x `). -/
theorem C8_witness :
    readValue ⟨['v', ' ', ' ', ' ', '\n'], 0⟩ =
      some (['v', ' ', ' ', ' '], ⟨[], 5⟩) ∧
    readValue ⟨[' ', '\r', 'x', ' '], 0⟩ = some (['x', ' '], ⟨[], 4⟩) := by
  constructor
  · have h := C8_unquoted_value.1 ['v', ' ', ' ', ' '] [] 0 (by decide)
    simpa [stripCR, dropLeadingSpaces] using h
  · have h := C8_unquoted_value.2 [' ', '\r', 'x', ' '] 0 (by decide)
    simpa [stripCR, dropLeadingSpaces] using h

/-! ## Store lemmas -/

theorem alookup_append {α : Type} (k : String) (l1 l2 : List (String × α)) :
    alookup k (l1 ++ l2) =
      match alookup k l1 with
      | some v => some v
      | none => alookup k l2 := by
  induction l1 with
  | nil => simp [alookup]
  | cons e t ih =>
    obtain ⟨k', v⟩ := e
    by_cases h : k' = k
    · simp [alookup, h]
    · simp [alookup, h, ih]

theorem alookup_map_upd {α : Type} (sec : String) (f : α → α)
    (ini : List (String × α)) (s : String) :
    alookup s (ini.map (fun e => if e.1 = sec then (e.1, f e.2) else e)) =
      if s = sec then (alookup s ini).map f else alookup s ini := by
  induction ini with
  | nil => simp [alookup]
  | cons e t ih =>
    obtain ⟨k', v⟩ := e
    by_cases h1 : k' = sec
    · subst h1
      have hmap : List.map (fun e => if e.1 = k' then (e.1, f e.2) else e)
          ((k', v) :: t) =
          (k', f v) :: List.map (fun e => if e.1 = k' then (e.1, f e.2) else e) t := by
        simp
      rw [hmap]
      by_cases h2 : k' = s
      · subst h2
        simp [alookup, ih]
      · have h2' : ¬(s = k') := fun hh => h2 hh.symm
        simp [alookup, h2, h2', ih]
    · have hmap : List.map (fun e => if e.1 = sec then (e.1, f e.2) else e)
          ((k', v) :: t) =
          (k', v) :: List.map (fun e => if e.1 = sec then (e.1, f e.2) else e) t := by
        simp [h1]
      rw [hmap]
      by_cases h2 : k' = s
      · subst h2
        have h1' : ¬(k' = sec) := h1
        simp [alookup, h1', ih]
      · simp [alookup, h2, ih]

theorem alookup_insertKV_self (m : Sect) (k v : String) :
    alookup k (insertKV m k v) = some v := by
  unfold insertKV
  by_cases h : (alookup k m).isSome
  · rw [if_pos h]
    obtain ⟨m0, hm0⟩ := Option.isSome_iff_exists.mp h
    have hu := alookup_map_upd k (fun _ => v) m k
    rw [if_pos rfl, hm0] at hu
    exact hu
  · rw [if_neg h]
    have hnone : alookup k m = none := by
      cases hx : alookup k m
      · rfl
      · rw [hx] at h; simp at h
    rw [alookup_append]
    simp [hnone, alookup]

theorem alookup_insertKV_other (m : Sect) (k v q : String) (hq : q ≠ k) :
    alookup q (insertKV m k v) = alookup q m := by
  unfold insertKV
  by_cases h : (alookup k m).isSome
  · rw [if_pos h]
    have hu := alookup_map_upd k (fun _ => v) m q
    rw [if_neg hq] at hu
    exact hu
  · rw [if_neg h]
    rw [alookup_append]
    have hq' : ¬(k = q) := fun hh => hq hh.symm
    cases hx : alookup q m
    · simp [hx, alookup, hq']
    · simp [hx]

theorem alookup_none_of_not_isSome {α : Type} (k : String)
    (l : List (String × α)) (h : ¬(alookup k l).isSome) : alookup k l = none := by
  cases hx : alookup k l
  · rfl
  · rw [hx] at h; simp at h

theorem insertKV_nil (k v : String) : insertKV [] k v = [(k, v)] := by
  simp [insertKV, alookup]

theorem get_set_self (st : Store) (s k v : String) :
    Get (set st s k v) s k = v ∧ Has (set st s k v) s k = true := by
  unfold set
  by_cases h : (alookup s st).isSome
  · rw [if_pos h]
    obtain ⟨m, hm⟩ := Option.isSome_iff_exists.mp h
    have hu := alookup_map_upd s (fun mm => insertKV mm k v) st s
    rw [if_pos rfl, hm] at hu
    constructor
    · simp [Get, hu, alookup_insertKV_self]
    · simp [Has, hu, alookup_insertKV_self]
  · rw [if_neg h]
    have hnone := alookup_none_of_not_isSome s st h
    rw [insertKV_nil]
    constructor
    · simp [Get, alookup_append, hnone, alookup]
    · simp [Has, alookup_append, hnone, alookup]

theorem get_set_other (st : Store) (s k v s' k' : String)
    (hne : ¬(s' = s ∧ k' = k)) :
    Get (set st s' k' v) s k = Get st s k ∧
    Has (set st s' k' v) s k = Has st s k := by
  unfold set
  by_cases hss : s = s'
  · subst hss
    have hkk : k ≠ k' := fun hk => hne ⟨rfl, hk.symm⟩
    by_cases h : (alookup s st).isSome
    · rw [if_pos h]
      obtain ⟨m, hm⟩ := Option.isSome_iff_exists.mp h
      have hu := alookup_map_upd s (fun mm => insertKV mm k' v) st s
      rw [if_pos rfl, hm] at hu
      have hik := alookup_insertKV_other m k' v k hkk
      constructor
      · simp [Get, hu, hm, hik]
      · simp [Has, hu, hm, hik]
    · rw [if_neg h]
      have hnone := alookup_none_of_not_isSome s st h
      have hkk' : ¬(k' = k) := fun hh => hkk hh.symm
      rw [insertKV_nil]
      constructor
      · simp [Get, alookup_append, hnone, alookup, hkk']
      · simp [Has, alookup_append, hnone, alookup, hkk']
  · by_cases h : (alookup s' st).isSome
    · rw [if_pos h]
      have hu := alookup_map_upd s' (fun mm => insertKV mm k' v) st s
      rw [if_neg hss] at hu
      constructor
      · simp [Get, hu]
      · simp [Has, hu]
    · rw [if_neg h]
      have heq : alookup s (st ++ [(s', insertKV [] k' v)]) = alookup s st := by
        rw [alookup_append]
        have hss' : ¬(s' = s) := fun hh => hss hh.symm
        cases hx : alookup s st
        · simp [alookup, hss']
        · simp
      constructor
      · simp [Get, heq]
      · simp [Has, heq]

theorem get_has_foldl_other (s k : String) :
    ∀ (ops : List (String × String × String)) (ini : Store),
      (∀ op ∈ ops, ¬(op.1 = s ∧ op.2.1 = k)) →
      Get ini s k = "" → Has ini s k = false →
      Get (ops.foldl (fun a op => set a op.1 op.2.1 op.2.2) ini) s k = "" ∧
      Has (ops.foldl (fun a op => set a op.1 op.2.1 op.2.2) ini) s k = false := by
  intro ops
  induction ops with
  | nil => intro ini _ hg hh; exact ⟨hg, hh⟩
  | cons op t ih =>
    intro ini hops hg hh
    have hop := hops op (List.mem_cons_self op t)
    have hstep := get_set_other ini s k op.2.2 op.1 op.2.1 hop
    exact ih (set ini op.1 op.2.1 op.2.2)
      (fun o ho => hops o (List.mem_cons_of_mem op ho))
      (hstep.1.trans hg) (hstep.2.trans hh)

/-! ## Claim theorems: C3, C4, C10 -/

/-- C3, counterexample: `ReadFrom` on the input `a=1⏎[b⏎x` fails with a
SyntaxError, yet the pair `("", "a") ↦ "1"` set during the failed pass
remains observable on the receiver via `Get`/`Has` — contradicting the
claim that no partial state survives on the `ReadFrom` path. -/
theorem C3_counterexample :
    (readFrom [] ("a=1\n[b\nx".toList)).2 = .fail (-1) (.sectionNewline 6) ∧
    Has (readFrom [] ("a=1\n[b\nx".toList)).1 "" "a" = true ∧
    Get (readFrom [] ("a=1\n[b\nx".toList)).1 "" "a" = "1" := by decide

/-- C3 (amended): a SyntaxError aborts the Load/ReadFrom call immediately;
the free `Load` returns no store — only the error; but `ReadFrom` mutates
its receiver while parsing, so key/value pairs set before the error remain
observable through `Get`/`Has` afterwards (witnessed at the concrete
failing input `a=1⏎[b⏎x`). -/
theorem C3_failure_no_store (cs : Chars) (r : Int) (e : Err) (st : Store)
    (h : readFrom [] cs = (st, .fail r e)) :
    load cs = .err e ∧
    Has (readFrom [] ("a=1\n[b\nx".toList)).1 "" "a" = true := by
  constructor
  · simp [load, h]
  · decide

/-- C3 witness: the theorem applied at the concrete failing input. -/
theorem C3_witness :
    load ("a=1\n[b\nx".toList) = .err (.sectionNewline 6) ∧
    Has (readFrom [] ("a=1\n[b\nx".toList)).1 "" "a" = true :=
  C3_failure_no_store ("a=1\n[b\nx".toList) (-1) (.sectionNewline 6)
    [("", [("a", "1")])] (by decide)

/-- C4: for every section and key never set (any sequence of `Set`
operations avoiding that pair, applied to the fresh store), `Get` returns
the empty string and `Has` returns `false`; and after `Set(s,k,v)` on any
store, `Get(s,k)` returns `v` and `Has(s,k)` returns `true`, for all
strings including empty ones. -/
theorem C4_store_contract (s k v : String) (st : Store)
    (ops : List (String × String × String))
    (hops : ∀ op ∈ ops, ¬(op.1 = s ∧ op.2.1 = k)) :
    (Get (applyOps ops) s k = "" ∧ Has (applyOps ops) s k = false) ∧
    (Get (set st s k v) s k = v ∧ Has (set st s k v) s k = true) := by
  constructor
  · exact get_has_foldl_other s k ops [] hops (by simp [Get, alookup])
      (by simp [Has, alookup])
  · exact get_set_self st s k v

/-- C4 witness: applied at concrete strings, with empty strings included in
the `Set` part via a second application. -/
theorem C4_witness :
    (Get (applyOps [("a", "b", "c"), ("x", "q", "r")]) "x" "y" = "" ∧
      Has (applyOps [("a", "b", "c"), ("x", "q", "r")]) "x" "y" = false) ∧
    (Get (set [("x", [("y", "old")])] "x" "y" "z") "x" "y" = "z" ∧
      Has (set [("x", [("y", "old")])] "x" "y" "z") "x" "y" = true) := by
  have h := C4_store_contract "x" "y" "z" [("x", [("y", "old")])]
    [("a", "b", "c"), ("x", "q", "r")] (by decide)
  exact h

/-- Helper for C10: the loop's second component is always `spin`, `done 0`
or `fail (-1) e`, mirroring the source's `return 0, nil` and
`return -1, err`. -/
theorem runF_out (fuel : Nat) :
    ∀ (s : Scanner) (cur : String) (ini : Store),
      (runF fuel s cur ini).2 = .spin ∨ (runF fuel s cur ini).2 = .done 0 ∨
      ∃ e, (runF fuel s cur ini).2 = .fail (-1) e := by
  induction fuel with
  | zero => intro s cur ini; left; rfl
  | succ g ih =>
    intro s cur ini
    simp only [runF]
    rcases hp : s.peekCh with _ | c
    · right; left; rfl
    · dsimp only
      by_cases h1 : c = ';' ∨ c = '#'
      · rw [if_pos h1]
        rcases hc : readCommentLine s with _ | s'
        · left; rfl
        · exact ih s' cur ini
      · rw [if_neg h1]
        by_cases h2 : c = '\n' ∨ c = '\r'
        · rw [if_pos h2]
          exact ih _ cur ini
        · rw [if_neg h2]
          by_cases h3 : c = '['
          · rw [if_pos h3]
            rcases hrs : readSection s with ⟨name, s'⟩ | e | _
            · exact ih s' _ ini
            · right; right; exact ⟨e, rfl⟩
            · left; rfl
          · rw [if_neg h3]
            rcases hrk : readKey s with ⟨kk, s'⟩ | e | _
            · dsimp only
              rcases hrv : readValue s' with _ | ⟨vv, s₂⟩
              · left; rfl
              · exact ih s₂ cur _
            · right; right; exact ⟨e, rfl⟩
            · left; rfl

/-- C10: `ReadFrom`'s integer result carries no byte count: whenever it
returns successfully the `int64` is exactly `0`, and whenever it fails the
`int64` is exactly `-1`, regardless of the input and of how much of it was
consumed. -/
theorem C10_readfrom_int (cs : Chars) (ini : Store) (r : Int) (e : Err) :
    ((readFrom ini cs).2 = .done r → r = 0) ∧
    ((readFrom ini cs).2 = .fail r e → r = -1) := by
  constructor
  · intro hh
    rcases runF_out (cs.length + 1) (initScanner cs) "" ini with h | h | ⟨e', h⟩
    · rw [show (readFrom ini cs).2 = (runF (cs.length + 1) (initScanner cs) "" ini).2
        from rfl, h] at hh
      cases hh
    · rw [show (readFrom ini cs).2 = (runF (cs.length + 1) (initScanner cs) "" ini).2
        from rfl, h] at hh
      cases hh
      rfl
    · rw [show (readFrom ini cs).2 = (runF (cs.length + 1) (initScanner cs) "" ini).2
        from rfl, h] at hh
      cases hh
  · intro hh
    rcases runF_out (cs.length + 1) (initScanner cs) "" ini with h | h | ⟨e', h⟩
    · rw [show (readFrom ini cs).2 = (runF (cs.length + 1) (initScanner cs) "" ini).2
        from rfl, h] at hh
      cases hh
    · rw [show (readFrom ini cs).2 = (runF (cs.length + 1) (initScanner cs) "" ini).2
        from rfl, h] at hh
      cases hh
    · rw [show (readFrom ini cs).2 = (runF (cs.length + 1) (initScanner cs) "" ini).2
        from rfl, h] at hh
      cases hh
      rfl

/-- C10 witness: at the empty input the result is `(0, nil)`; the theorem
instantiated there yields `0 = 0`. -/
theorem C10_witness : (0 : Int) = 0 :=
  (C10_readfrom_int [] [] 0 (.keyEOF 0)).1 (by decide)

/-! ## Writer refinement lemmas (C9) -/

theorem emitChunks_append (failAt : Option Nat) (xs ys : List Chars) :
    ∀ ws : WriteState,
      emitChunks failAt ws (xs ++ ys) =
        (fun p => if p.2 then emitChunks failAt p.1 ys else p)
          (emitChunks failAt ws xs) := by
  induction xs with
  | nil => intro ws; simp [emitChunks]
  | cons c t ih =>
    intro ws
    simp only [List.cons_append, emitChunks]
    by_cases h : (doWrite failAt ws c).2
    · simp [h, ih]
    · simp [h]

theorem writeKVList_eq (failAt : Option Nat) :
    ∀ (kvs : Sect) (ws : WriteState),
      writeKVList failAt ws kvs = emitChunks failAt ws (kvs.map kvLine) := by
  intro kvs
  induction kvs with
  | nil => intro ws; rfl
  | cons kv t ih =>
    intro ws
    simp only [writeKVList, List.map_cons, emitChunks]
    by_cases h : (doWrite failAt ws (kvLine kv)).2
    · simp [h, ih]
    · simp [h]

theorem emitChunks_cons (failAt : Option Nat) (ws : WriteState) (c : Chars)
    (t : List Chars) :
    emitChunks failAt ws (c :: t) =
      if (doWrite failAt ws c).2 then
        emitChunks failAt (doWrite failAt ws c).1 t
      else ((doWrite failAt ws c).1, false) := by
  simp [emitChunks]

theorem writeSections_eq (failAt : Option Nat) :
    ∀ (l : Store) (ws : WriteState),
      writeSections failAt ws l = emitChunks failAt ws (sectionChunks l) := by
  intro l
  induction l with
  | nil => intro ws; rfl
  | cons e t ih =>
    intro ws
    obtain ⟨sec, kvs⟩ := e
    by_cases hsec : sec = ""
    · subst hsec
      simp [writeSections, sectionChunks, ih]
    · cases kvs with
      | nil => simp [writeSections, hsec, sectionChunks, ih]
      | cons kv kt =>
        rw [show sectionChunks ((sec, kv :: kt) :: t) =
            headerLine sec :: ((kv :: kt).map kvLine ++ sectionChunks t) from by
          simp [sectionChunks, hsec]]
        rw [emitChunks_cons]
        simp only [writeSections]
        rw [if_neg hsec]
        rcases hdw : doWrite failAt ws (headerLine sec) with ⟨ws1, ok1⟩
        dsimp only
        cases ok1 with
        | false => simp
        | true =>
          simp only [if_pos]
          rw [writeKVList_eq, emitChunks_append]
          rcases hkv : emitChunks failAt ws1 ((kv :: kt).map kvLine) with ⟨ws2, ok2⟩
          dsimp only
          cases ok2 with
          | false => simp
          | true => simp [ih]

theorem writeTo_eq (ini : Store) (failAt : Option Nat) :
    writeTo ini failAt =
      ((emitChunks failAt ⟨[], 0, 0⟩ (allChunks ini)).1.out,
        (emitChunks failAt ⟨[], 0, 0⟩ (allChunks ini)).1.nw,
        (emitChunks failAt ⟨[], 0, 0⟩ (allChunks ini)).2) := by
  unfold writeTo allChunks
  rw [emitChunks_append]
  cases hd : alookup "" ini with
  | none =>
    simp [defaultChunks, hd, emitChunks, writeSections_eq]
  | some data =>
    simp only [defaultChunks, hd, Option.getD_some]
    rw [writeKVList_eq]
    rcases hkv : emitChunks failAt ⟨[], 0, 0⟩ (data.map kvLine) with ⟨ws1, ok1⟩
    dsimp only
    cases ok1 with
    | false => simp
    | true => simp [writeSections_eq]

theorem emitChunks_none_eq (cs : List Chars) :
    ∀ ws : WriteState,
      emitChunks none ws cs =
        (⟨ws.out ++ cs.flatten, ws.nw + (cs.flatten.length : Int),
          ws.calls + cs.length⟩, true) := by
  induction cs with
  | nil => intro ws; simp [emitChunks]
  | cons c t ih =>
    intro ws
    have hdw : doWrite none ws c =
        (⟨ws.out ++ c, ws.nw + (c.length : Int), ws.calls + 1⟩, true) := by
      simp [doWrite]
    rw [emitChunks_cons, hdw]
    dsimp only
    rw [if_pos rfl, ih]
    simp [WriteState.mk.injEq, List.append_assoc]
    constructor
    · omega
    · omega

theorem emitChunks_some_done (i : Nat) :
    ∀ (cs : List Chars) (ws : WriteState), ws.calls + cs.length ≤ i →
      emitChunks (some i) ws cs =
        (⟨ws.out ++ cs.flatten, ws.nw + (cs.flatten.length : Int),
          ws.calls + cs.length⟩, true) := by
  intro cs
  induction cs with
  | nil => intro ws _; simp [emitChunks]
  | cons c t ih =>
    intro ws hle
    simp only [List.length_cons] at hle
    have hne : ¬((some i : Option Nat) = some ws.calls) := by
      intro hc
      have := Option.some.inj hc
      omega
    have hdw : doWrite (some i) ws c =
        (⟨ws.out ++ c, ws.nw + (c.length : Int), ws.calls + 1⟩, true) := by
      simp [doWrite, hne]
    rw [emitChunks_cons, hdw]
    dsimp only
    rw [if_pos rfl, ih _ (by dsimp only; omega)]
    simp [WriteState.mk.injEq, List.append_assoc]
    constructor
    · omega
    · omega

theorem emitChunks_some_fail (i : Nat) :
    ∀ (cs : List Chars) (ws : WriteState) (j : Nat), ws.calls + j = i →
      j < cs.length →
      emitChunks (some i) ws cs =
        (⟨ws.out ++ (cs.take j).flatten,
          ws.nw + ((cs.take j).flatten.length : Int), i + 1⟩, false) := by
  intro cs
  induction cs with
  | nil => intro ws j _ hj; simp at hj
  | cons c t ih =>
    intro ws j hi hj
    cases j with
    | zero =>
      have hdw : doWrite (some i) ws c = (⟨ws.out, ws.nw, ws.calls + 1⟩, false) := by
        have hic : i = ws.calls := by omega
        simp [doWrite, hic]
      rw [emitChunks_cons, hdw]
      simp
      omega
    | succ j' =>
      have hne : ¬((some i : Option Nat) = some ws.calls) := by
        intro hc
        have := Option.some.inj hc
        omega
      have hdw : doWrite (some i) ws c =
          (⟨ws.out ++ c, ws.nw + (c.length : Int), ws.calls + 1⟩, true) := by
        simp [doWrite, hne]
      rw [emitChunks_cons, hdw]
      dsimp only
      rw [if_pos rfl,
        ih _ j' (by dsimp only; omega) (by simp only [List.length_cons] at hj; omega)]
      simp [WriteState.mk.injEq, List.append_assoc]
      omega

/-- C9: `WriteTo` first emits every `key="value"` line of the default
section, then for every other section a `[section]` header followed by that
section's `key="value"` lines, with empty sections emitting nothing
(`allChunks` is exactly that description); against a non-failing sink it
writes precisely the concatenation of those chunks and returns their total
length as its count; against a sink failing at call `i` it returns the
underlying error immediately: only the first `i` chunks are written, the
count covers exactly them, and the call succeeds only when `i` is beyond
the last chunk. -/
theorem C9_writeTo_shape (ini : Store) (i : Nat) :
    writeTo ini none =
      ((allChunks ini).flatten, ((allChunks ini).flatten.length : Int), true) ∧
    (writeTo ini (some i)).1 = ((allChunks ini).take i).flatten ∧
    (writeTo ini (some i)).2.1 =
      (((allChunks ini).take i).flatten.length : Int) ∧
    ((writeTo ini (some i)).2.2 = true ↔ (allChunks ini).length ≤ i) := by
  have hnone := writeTo_eq ini none
  have hsome := writeTo_eq ini (some i)
  rw [emitChunks_none_eq] at hnone
  constructor
  · simpa using hnone
  · by_cases hlen : (allChunks ini).length ≤ i
    · rw [emitChunks_some_done i (allChunks ini) ⟨[], 0, 0⟩ (by simpa using hlen)]
        at hsome
      have htake : (allChunks ini).take i = allChunks ini :=
        List.take_of_length_le hlen
      rw [hsome, htake]
      simp [hlen]
    · rw [emitChunks_some_fail i (allChunks ini) ⟨[], 0, 0⟩ i (by dsimp only; omega)
        (by omega)] at hsome
      rw [hsome]
      simp
      omega

/-! ## Goodness predicates for the round trip (C5) -/

theorem char_ne_of_toNat_lt {c : Char} {n : Nat} (d : Char) (hd : d.toNat < n)
    (hc : n ≤ c.toNat) : c ≠ d := by
  intro he
  subst he
  omega

theorem keyKept_id (k : Chars) (hk : ∀ c ∈ k, goodKeyChar c) : keyKept k = k := by
  induction k with
  | nil => rfl
  | cons c t ih =>
    obtain ⟨h1, _⟩ := hk c (List.mem_cons_self c t)
    have hs : c ≠ ' ' := char_ne_of_toNat_lt ' ' (by decide) h1
    have ht : c ≠ '\t' := char_ne_of_toNat_lt '\t' (by decide) h1
    simp [keyKept, hs, ht, ih (fun d hd => hk d (List.mem_cons_of_mem c hd))]

theorem secKept_id (l : Chars) (hl : ∀ c ∈ l, goodSecChar c) : secKept l = l := by
  induction l with
  | nil => rfl
  | cons c t ih =>
    obtain ⟨h1, _, hbr, _⟩ := hl c (List.mem_cons_self c t)
    have ht : c ≠ '\t' := char_ne_of_toNat_lt '\t' (by decide) h1
    simp [secKept, hbr, ht, ih (fun d hd => hl d (List.mem_cons_of_mem c hd))]

theorem quoteChar_id (c : Char) (h : goodValChar c) : quoteChar c = [c] := by
  obtain ⟨h1, h2, h3, h4⟩ := h
  have e1 : c ≠ '\n' := char_ne_of_toNat_lt '\n' (by decide) h1
  have e2 : c ≠ '\r' := char_ne_of_toNat_lt '\r' (by decide) h1
  have e3 : c ≠ '\t' := char_ne_of_toNat_lt '\t' (by decide) h1
  have n7 : ¬(c.toNat = 7) := by omega
  have n8 : ¬(c.toNat = 8) := by omega
  have n12 : ¬(c.toNat = 12) := by omega
  have n11 : ¬(c.toNat = 11) := by omega
  simp [quoteChar, h1, h2, h3, h4, e1, e2, e3, n7, n8, n12, n11]

theorem flatMap_quoteChar_id (v : Chars) (hv : ∀ c ∈ v, goodValChar c) :
    v.flatMap quoteChar = v := by
  induction v with
  | nil => rfl
  | cons c t ih =>
    simp [quoteChar_id c (hv c (List.mem_cons_self c t)),
      ih (fun d hd => hv d (List.mem_cons_of_mem c hd))]

theorem goQuote_good (v : String) (hv : ∀ c ∈ v.data, goodValChar c) :
    goQuote v = '"' :: (v.data ++ ['"']) := by
  simp [goQuote, flatMap_quoteChar_id v.data hv]

theorem kvLine_append (k v : String) (rest : Chars)
    (hv : ∀ c ∈ v.data, goodValChar c) :
    kvLine (k, v) ++ rest =
      k.data ++ '=' :: '"' :: (v.data ++ '"' :: '\n' :: rest) := by
  simp [kvLine, goQuote_good v hv]

theorem kvLine_length (k v : String) (hv : ∀ c ∈ v.data, goodValChar c) :
    (kvLine (k, v)).length = k.data.length + v.data.length + 4 := by
  simp [kvLine, goQuote_good v hv]
  omega

theorem headerLine_append (sec : String) (rest : Chars) :
    headerLine sec ++ rest = '[' :: (sec.data ++ ']' :: '\n' :: rest) := by
  simp [headerLine]

theorem string_mk_data (s : String) : String.mk s.data = s := rfl

/-! ## Driver-loop step lemmas (C5) -/

theorem runF_default_step (fuel : Nat) (s : Scanner) (cur : String) (ini : Store)
    (c0 : Char) (hp : s.peekCh = some c0)
    (h1 : ¬(c0 = ';' ∨ c0 = '#')) (h2 : ¬(c0 = '\n' ∨ c0 = '\r'))
    (h3 : ¬(c0 = '[')) (k : Chars) (s' : Scanner) (v : Chars) (s₂ : Scanner)
    (hkey : readKey s = .ok (k, s')) (hval : readValue s' = some (v, s₂)) :
    runF (fuel + 1) s cur ini =
      runF fuel s₂ cur (set ini cur (String.mk k) (String.mk v)) := by
  simp only [runF]
  rw [hp]
  dsimp only
  rw [if_neg h1, if_neg h2, if_neg h3, hkey]
  dsimp only
  rw [hval]

theorem runF_newline_step (fuel : Nat) (c0 : Char) (rest : Chars) (off : Nat)
    (cur : String) (ini : Store) (hc : c0 = '\n' ∨ c0 = '\r') :
    runF (fuel + 1) ⟨c0 :: rest, off⟩ cur ini =
      runF fuel ⟨rest, off + 1⟩ cur ini := by
  have ht : c0 ≠ '\t' := by rcases hc with h | h <;> subst h <;> decide
  have hq : c0 ≠ '"' := by rcases hc with h | h <;> subst h <;> decide
  have hcm : ¬(c0 = ';' ∨ c0 = '#') := by
    rcases hc with h | h <;> subst h <;> decide
  simp only [runF]
  have hp : (⟨c0 :: rest, off⟩ : Scanner).peekCh = some c0 := rfl
  rw [hp]
  dsimp only
  rw [if_neg hcm, if_pos hc, scan_chr c0 rest off ht hq]

theorem runF_section_step (fuel : Nat) (s : Scanner) (cur : String) (ini : Store)
    (name : Chars) (s' : Scanner) (hp : s.peekCh = some '[')
    (hsec : readSection s = .ok (name, s')) :
    runF (fuel + 1) s cur ini = runF fuel s' (String.mk name) ini := by
  simp only [runF]
  rw [hp]
  dsimp only
  rw [if_neg (by decide), if_neg (by decide), if_pos rfl, hsec]

theorem runF_nil (fuel : Nat) (off : Nat) (cur : String) (ini : Store) :
    runF (fuel + 1) ⟨[], off⟩ cur ini = (ini, .done 0) := rfl

theorem runF_kv_step (fuel : Nat) (k v rest : Chars) (off : Nat) (cur : String)
    (ini : Store) (hk : ∀ c ∈ k, goodKeyChar c) (hv : ∀ c ∈ v, goodValChar c) :
    runF (fuel + 2) ⟨k ++ '=' :: '"' :: (v ++ '"' :: '\n' :: rest), off⟩ cur ini =
      runF fuel ⟨rest, off + (k.length + v.length + 4)⟩ cur
        (set ini cur (String.mk k) (String.mk v)) := by
  have hkey : readKey ⟨k ++ '=' :: '"' :: (v ++ '"' :: '\n' :: rest), off⟩ =
      .ok (k, ⟨'"' :: (v ++ '"' :: '\n' :: rest), off + k.length + 1⟩) := by
    rw [readKey_ok k ('"' :: (v ++ '"' :: '\n' :: rest)) off
      (fun c hc => ⟨(hk c hc).2.2.1, (hk c hc).2.2.2.1⟩)]
    rw [keyKept_id k hk]
  have hvgood : ∀ c ∈ v, c ≠ '"' ∧ c ≠ '\\' ∧ c ≠ '\n' := fun c hc =>
    ⟨(hv c hc).2.2.1, (hv c hc).2.2.2,
      char_ne_of_toNat_lt '\n' (by decide) (hv c hc).1⟩
  have hval : readValue ⟨'"' :: (v ++ '"' :: '\n' :: rest), off + k.length + 1⟩ =
      some (v, ⟨'\n' :: rest, off + k.length + 1 + v.length + 2⟩) :=
    readValue_quoted v ('\n' :: rest) (off + k.length + 1) hvgood
  have hp : (⟨k ++ '=' :: '"' :: (v ++ '"' :: '\n' :: rest), off⟩ : Scanner).peekCh =
      some (k.headD '=') := by
    cases k <;> rfl
  have h1 : ¬(k.headD '=' = ';' ∨ k.headD '=' = '#') := by
    cases k with
    | nil => decide
    | cons c t =>
      obtain ⟨_, _, _, _, hsemi, hhash, _, _⟩ := hk c (List.mem_cons_self c t)
      simp [hsemi, hhash]
  have h2 : ¬(k.headD '=' = '\n' ∨ k.headD '=' = '\r') := by
    cases k with
    | nil => decide
    | cons c t =>
      have hr := (hk c (List.mem_cons_self c t)).1
      simp [char_ne_of_toNat_lt '\n' (by decide) hr,
        char_ne_of_toNat_lt '\r' (by decide) hr]
  have h3 : ¬(k.headD '=' = '[') := by
    cases k with
    | nil => decide
    | cons c t => exact (hk c (List.mem_cons_self c t)).2.2.2.2.2.2.1
  have hstep := runF_default_step (fuel + 1)
    ⟨k ++ '=' :: '"' :: (v ++ '"' :: '\n' :: rest), off⟩ cur ini (k.headD '=')
    hp h1 h2 h3 k _ v _ hkey hval
  rw [show fuel + 2 = fuel + 1 + 1 from rfl, hstep,
    runF_newline_step fuel '\n' rest _ cur _ (Or.inl rfl)]
  rw [show off + k.length + 1 + v.length + 2 + 1 = off + (k.length + v.length + 4)
    from by omega]

theorem runF_sec_step (fuel : Nat) (sec rest : Chars) (off : Nat) (cur : String)
    (ini : Store) (hs : ∀ c ∈ sec, goodSecChar c) :
    runF (fuel + 2) ⟨'[' :: (sec ++ ']' :: '\n' :: rest), off⟩ cur ini =
      runF fuel ⟨rest, off + (sec.length + 3)⟩ (String.mk sec) ini := by
  have hin : ∀ c ∈ ('[' :: sec), c ≠ ']' ∧ c ≠ '\n' ∧ c ≠ '\r' ∧ c ≠ '"' := by
    intro c hc
    rcases List.mem_cons.mp hc with h | h
    · subst h; exact ⟨by decide, by decide, by decide, by decide⟩
    · obtain ⟨hr, _, _, hcl, hq⟩ := hs c h
      exact ⟨hcl, char_ne_of_toNat_lt '\n' (by decide) hr,
        char_ne_of_toNat_lt '\r' (by decide) hr, hq⟩
  have hsec : readSection ⟨'[' :: (sec ++ ']' :: '\n' :: rest), off⟩ =
      .ok (sec, ⟨'\n' :: rest, off + sec.length + 2⟩) := by
    have h := readSection_ok ('[' :: sec) ('\n' :: rest) off hin
    rw [List.cons_append] at h
    rw [h]
    have hsk : secKept ('[' :: sec) = secKept sec := by simp [secKept]
    rw [hsk, secKept_id sec hs]
    simp
    omega
  have hp : (⟨'[' :: (sec ++ ']' :: '\n' :: rest), off⟩ : Scanner).peekCh =
      some '[' := rfl
  have hstep := runF_section_step (fuel + 1)
    ⟨'[' :: (sec ++ ']' :: '\n' :: rest), off⟩ cur ini sec _ hp hsec
  rw [show fuel + 2 = fuel + 1 + 1 from rfl, hstep,
    runF_newline_step fuel '\n' rest _ _ _ (Or.inl rfl)]
  rw [show off + sec.length + 2 + 1 = off + (sec.length + 3) from by omega]

/-! ## Insertion-structure lemmas (C5) -/

theorem alookup_none_of_not_mem {α : Type} (k : String) (l : List (String × α))
    (h : k ∉ l.map Prod.fst) : alookup k l = none := by
  induction l with
  | nil => rfl
  | cons e t ih =>
    simp only [List.map_cons, List.mem_cons] at h
    push_neg at h
    obtain ⟨h1, h2⟩ := h
    obtain ⟨k', v⟩ := e
    simp only [alookup]
    rw [if_neg (fun hh => h1 hh.symm)]
    exact ih h2

theorem alookup_mem {α : Type} (k : String) (v : α) :
    ∀ l : List (String × α), alookup k l = some v → (k, v) ∈ l := by
  intro l
  induction l with
  | nil => intro h; simp [alookup] at h
  | cons e t ih =>
    intro h
    obtain ⟨k', w⟩ := e
    by_cases hk : k' = k
    · subst hk
      simp only [alookup, if_pos rfl] at h
      cases h
      exact List.mem_cons_self _ _
    · simp only [alookup, if_neg hk] at h
      exact List.mem_cons_of_mem _ (ih h)

theorem map_upd_id (sec k v : String) (ini : Store)
    (h : sec ∉ ini.map Prod.fst) :
    ini.map (fun e => if e.1 = sec then (e.1, insertKV e.2 k v) else e) = ini := by
  induction ini with
  | nil => rfl
  | cons e t ih =>
    simp only [List.map_cons, List.mem_cons] at h
    push_neg at h
    obtain ⟨h1, h2⟩ := h
    obtain ⟨k', m⟩ := e
    have hne : ¬(k' = sec) := fun hh => h1 hh.symm
    simp only [List.map_cons]
    rw [ih h2]
    simp [hne]

theorem set_last (ini : Store) (sec : String) (m : Sect) (k v : String)
    (hfresh : sec ∉ ini.map Prod.fst) (hk : k ∉ m.map Prod.fst) :
    set (ini ++ [(sec, m)]) sec k v = ini ++ [(sec, m ++ [(k, v)])] := by
  have hnone : alookup sec ini = none := alookup_none_of_not_mem sec ini hfresh
  have hsome : alookup sec (ini ++ [(sec, m)]) = some m := by
    rw [alookup_append]
    simp [hnone, alookup]
  have hins : insertKV m k v = m ++ [(k, v)] := by
    unfold insertKV
    rw [if_neg (by simp [alookup_none_of_not_mem k m hk])]
  unfold set
  rw [if_pos (by simp [hsome])]
  rw [List.map_append, map_upd_id sec k v ini hfresh]
  simp [hins]

theorem setAll_last (sec : String) (kvs : Sect) :
    ∀ (ini : Store) (m : Sect),
      sec ∉ ini.map Prod.fst →
      (∀ kv ∈ kvs, kv.1 ∉ m.map Prod.fst) →
      (kvs.map Prod.fst).Nodup →
      kvs.foldl (fun a kv => set a sec kv.1 kv.2) (ini ++ [(sec, m)]) =
        ini ++ [(sec, m ++ kvs)] := by
  induction kvs with
  | nil => intro ini m _ _ _; simp
  | cons kv t ih =>
    intro ini m hfresh hdisj hnd
    have hnd1 : kv.1 ∉ t.map Prod.fst := (List.nodup_cons.mp (by simpa using hnd)).1
    have hnd2 : (t.map Prod.fst).Nodup := (List.nodup_cons.mp (by simpa using hnd)).2
    simp only [List.foldl_cons]
    rw [set_last ini sec m kv.1 kv.2 hfresh (hdisj kv (List.mem_cons_self kv t))]
    have hdisj' : ∀ kv' ∈ t, kv'.1 ∉ (m ++ [(kv.1, kv.2)]).map Prod.fst := by
      intro kv' hkv'
      simp only [List.map_append, List.mem_append, List.map_cons, List.map_nil,
        List.mem_singleton]
      push_neg
      constructor
      · exact hdisj kv' (List.mem_cons_of_mem kv hkv')
      · intro hcontra
        exact hnd1 (hcontra ▸ List.mem_map_of_mem Prod.fst hkv')
    rw [ih ini (m ++ [(kv.1, kv.2)]) hfresh hdisj' hnd2]
    simp

theorem setAll_fresh (sec : String) (kvs : Sect) (ini : Store)
    (hfresh : sec ∉ ini.map Prod.fst)
    (hnd : (kvs.map Prod.fst).Nodup) (hne : kvs ≠ []) :
    kvs.foldl (fun a kv => set a sec kv.1 kv.2) ini = ini ++ [(sec, kvs)] := by
  cases kvs with
  | nil => exact absurd rfl hne
  | cons kv t =>
    have hnd1 : kv.1 ∉ t.map Prod.fst := (List.nodup_cons.mp (by simpa using hnd)).1
    have hnd2 : (t.map Prod.fst).Nodup := (List.nodup_cons.mp (by simpa using hnd)).2
    have h1 : set ini sec kv.1 kv.2 = ini ++ [(sec, [(kv.1, kv.2)])] := by
      unfold set
      rw [if_neg (by simp [alookup_none_of_not_mem sec ini hfresh])]
      rw [insertKV_nil]
    simp only [List.foldl_cons]
    rw [h1, setAll_last sec t ini [(kv.1, kv.2)] hfresh
      (by
        intro kv' hkv'
        simp only [List.map_cons, List.map_nil, List.mem_singleton]
        intro hcontra
        exact hnd1 (hcontra ▸ List.mem_map_of_mem Prod.fst hkv'))
      hnd2]
    simp

theorem setAll_default (d : Sect) (hnd : (d.map Prod.fst).Nodup) :
    d.foldl (fun a kv => set a "" kv.1 kv.2) [] = dInit d := by
  rcases d with _ | ⟨kv, t⟩
  · rfl
  · rw [show dInit (kv :: t) = [("", kv :: t)] from by simp [dInit]]
    exact by simpa using setAll_fresh "" (kv :: t) [] (by simp) hnd (by simp)

/-! ## Parsing the emitted chunks (C5) -/

theorem runF_kvlist (kvs : Sect) (cur : String) :
    ∀ (fuel : Nat) (rest : Chars) (off : Nat) (ini : Store),
      (∀ kv ∈ kvs, (∀ c ∈ kv.1.data, goodKeyChar c) ∧
        (∀ c ∈ kv.2.data, goodValChar c)) →
      runF (2 * kvs.length + fuel) ⟨(kvs.map kvLine).flatten ++ rest, off⟩ cur ini =
        runF fuel ⟨rest, off + ((kvs.map kvLine).flatten).length⟩ cur
          (kvs.foldl (fun a kv => set a cur kv.1 kv.2) ini) := by
  induction kvs with
  | nil => intro fuel rest off ini _; simp
  | cons kv t ih =>
    intro fuel rest off ini hg
    obtain ⟨hk, hv⟩ := hg kv (List.mem_cons_self kv t)
    obtain ⟨k, v⟩ := kv
    have hshape : (((k, v) :: t).map kvLine).flatten ++ rest =
        k.data ++ '=' :: '"' :: (v.data ++ '"' :: '\n' ::
          ((t.map kvLine).flatten ++ rest)) := by
      rw [List.map_cons, List.flatten_cons, List.append_assoc,
        kvLine_append k v ((t.map kvLine).flatten ++ rest) hv]
    rw [show 2 * ((k, v) :: t).length + fuel = (2 * t.length + fuel) + 2 from by
      simp
      omega]
    rw [hshape, runF_kv_step (2 * t.length + fuel) k.data v.data
      ((t.map kvLine).flatten ++ rest) off cur ini hk hv]
    rw [string_mk_data, string_mk_data]
    rw [ih fuel rest (off + (k.data.length + v.data.length + 4)) (set ini cur k v)
      (fun kv' hkv' => hg kv' (List.mem_cons_of_mem _ hkv'))]
    rw [show off + (k.data.length + v.data.length + 4) +
        ((t.map kvLine).flatten).length =
        off + ((((k, v) :: t).map kvLine).flatten).length from by
      rw [List.map_cons, List.flatten_cons, List.length_append,
        kvLine_length k v hv]
      omega]
    rfl

theorem runF_sections (l : Store) :
    ∀ (fuel off : Nat) (cur : String) (ini : Store),
      (∀ e ∈ l, (e.2.map Prod.fst).Nodup ∧ (∀ c ∈ e.1.data, goodSecChar c) ∧
        ∀ kv ∈ e.2, (∀ c ∈ kv.1.data, goodKeyChar c) ∧
          (∀ c ∈ kv.2.data, goodValChar c)) →
      (l.map Prod.fst).Nodup →
      (∀ e ∈ l, e.1 ≠ "" → e.2 ≠ [] → e.1 ∉ ini.map Prod.fst) →
      runF (2 * (sectionChunks l).length + (fuel + 1))
          ⟨(sectionChunks l).flatten, off⟩ cur ini =
        (ini ++ keepSections l, .done 0) := by
  induction l with
  | nil =>
    intro fuel off cur ini _ _ _
    simp only [sectionChunks, List.flatMap_nil, List.length_nil, Nat.mul_zero,
      Nat.zero_add, List.flatten_nil, keepSections, List.append_nil]
    exact runF_nil fuel off cur ini
  | cons e t ih =>
    intro fuel off cur ini hgood hnd hfresh
    obtain ⟨sec, kvs⟩ := e
    have hgood' := fun e' he' => hgood e' (List.mem_cons_of_mem _ he')
    have hnd' : (t.map Prod.fst).Nodup := (List.nodup_cons.mp (by simpa using hnd)).2
    have hndsec : sec ∉ t.map Prod.fst := (List.nodup_cons.mp (by simpa using hnd)).1
    by_cases hsec : sec = ""
    · subst hsec
      rw [show sectionChunks (("", kvs) :: t) = sectionChunks t from by
        simp [sectionChunks]]
      rw [show keepSections (("", kvs) :: t) = keepSections t from by
        simp [keepSections]]
      exact ih fuel off cur ini hgood' hnd'
        (fun e' he' => hfresh e' (List.mem_cons_of_mem _ he'))
    · cases kvs with
      | nil =>
        rw [show sectionChunks ((sec, []) :: t) = sectionChunks t from by
          simp [sectionChunks]]
        rw [show keepSections ((sec, []) :: t) = keepSections t from by
          simp [keepSections]]
        exact ih fuel off cur ini hgood' hnd'
          (fun e' he' => hfresh e' (List.mem_cons_of_mem _ he'))
      | cons kv kt =>
        obtain ⟨hkvnd, hsecgood, hkvgood⟩ :=
          hgood (sec, kv :: kt) (List.mem_cons_self _ t)
        have hch : sectionChunks ((sec, kv :: kt) :: t) =
            headerLine sec :: ((kv :: kt).map kvLine ++ sectionChunks t) := by
          simp [sectionChunks, hsec]
        have hflat : (sectionChunks ((sec, kv :: kt) :: t)).flatten =
            '[' :: (sec.data ++ ']' :: '\n' ::
              (((kv :: kt).map kvLine).flatten ++ (sectionChunks t).flatten)) := by
          rw [hch, List.flatten_cons, List.flatten_append,
            headerLine_append sec
              (((kv :: kt).map kvLine).flatten ++ (sectionChunks t).flatten)]
        have hfreshsec : sec ∉ ini.map Prod.fst :=
          hfresh (sec, kv :: kt) (List.mem_cons_self _ t) hsec (by simp)
        have hfresh' : ∀ e' ∈ t, e'.1 ≠ "" → e'.2 ≠ [] →
            e'.1 ∉ (ini ++ [(sec, kv :: kt)]).map Prod.fst := by
          intro e' he' hne hnil
          simp only [List.map_append, List.mem_append, List.map_cons, List.map_nil,
            List.mem_singleton]
          push_neg
          refine ⟨hfresh e' (List.mem_cons_of_mem _ he') hne hnil, ?_⟩
          intro hcontra
          exact hndsec (hcontra ▸ List.mem_map_of_mem Prod.fst he')
        rw [hflat]
        rw [show 2 * (sectionChunks ((sec, kv :: kt) :: t)).length + (fuel + 1) =
            2 * (kv :: kt).length + (2 * (sectionChunks t).length + (fuel + 1)) + 2
            from by
          rw [hch]
          simp
          omega]
        rw [runF_sec_step
          (2 * (kv :: kt).length + (2 * (sectionChunks t).length + (fuel + 1)))
          sec.data (((kv :: kt).map kvLine).flatten ++ (sectionChunks t).flatten)
          off cur ini hsecgood]
        rw [string_mk_data]
        rw [runF_kvlist (kv :: kt) sec (2 * (sectionChunks t).length + (fuel + 1))
          ((sectionChunks t).flatten) (off + (sec.data.length + 3)) ini hkvgood]
        rw [setAll_fresh sec (kv :: kt) ini hfreshsec hkvnd (by simp)]
        rw [ih fuel
          (off + (sec.data.length + 3) + (((kv :: kt).map kvLine).flatten).length)
          sec (ini ++ [(sec, kv :: kt)]) hgood' hnd' hfresh']
        rw [show keepSections ((sec, kv :: kt) :: t) =
            (sec, kv :: kt) :: keepSections t from by simp [keepSections, hsec]]
        simp

/-! ## The full round trip (C5) -/

theorem kvLine_min (kv : String × String) : 2 ≤ (kvLine kv).length := by
  obtain ⟨k, v⟩ := kv
  simp [kvLine, goQuote]
  omega

theorem headerLine_min (sec : String) : 2 ≤ (headerLine sec).length := by
  simp [headerLine]

theorem allChunks_min (st : Store) : ∀ ch ∈ allChunks st, 2 ≤ ch.length := by
  intro ch hch
  rcases List.mem_append.mp hch with h | h
  · obtain ⟨kv, _, rfl⟩ := List.mem_map.mp h
    exact kvLine_min kv
  · obtain ⟨e, he, hmem⟩ := List.mem_flatMap.mp h
    by_cases hsec : e.1 = ""
    · simp [hsec] at hmem
    · rcases hkvs : e.2 with _ | ⟨kv, kt⟩
      · rw [hkvs] at hmem
        simp [hsec] at hmem
      · rw [hkvs] at hmem
        simp only [hsec, if_false, List.mem_cons] at hmem
        rcases hmem with rfl | hmem
        · exact headerLine_min e.1
        · obtain ⟨kv', _, rfl⟩ := List.mem_map.mp hmem
          exact kvLine_min kv'

theorem flatten_len_ge (cs : List Chars) (h : ∀ ch ∈ cs, 2 ≤ ch.length) :
    2 * cs.length ≤ cs.flatten.length := by
  induction cs with
  | nil => simp
  | cons c t ih =>
    simp only [List.flatten_cons, List.length_append, List.length_cons]
    have h1 := h c (List.mem_cons_self c t)
    have h2 := ih (fun d hd => h d (List.mem_cons_of_mem c hd))
    omega

theorem load_write (st : Store) (hg : goodStore st) :
    load ((writeTo st none).1) = .ok (parsedOf st) := by
  obtain ⟨hnd, hgood⟩ := hg
  have hout : (writeTo st none).1 = (allChunks st).flatten := by
    rw [writeTo_eq, emitChunks_none_eq]
    simp
  have hS := flatten_len_ge (allChunks st) (allChunks_min st)
  rw [hout]
  simp only [load, readFrom, initScanner]
  rcases hl : alookup "" st with _ | m
  · have hlen : (allChunks st).length = (sectionChunks st).length := by
      simp [allChunks, defaultChunks, hl]
    have hflat : (allChunks st).flatten = (sectionChunks st).flatten := by
      simp [allChunks, defaultChunks, hl]
    obtain ⟨f, hf⟩ : ∃ f, (allChunks st).flatten.length + 1 =
        2 * (sectionChunks st).length + (f + 1) :=
      ⟨(allChunks st).flatten.length - 2 * (allChunks st).length, by omega⟩
    rw [hf, hflat]
    rw [runF_sections st f 0 "" [] hgood hnd (by simp)]
    simp [parsedOf, hl, dInit]
  · have hmem := alookup_mem "" m st hl
    obtain ⟨hmnd, _, hmkv⟩ := hgood ("", m) hmem
    have hlen : (allChunks st).length = m.length + (sectionChunks st).length := by
      simp [allChunks, defaultChunks, hl]
    have hflat : (allChunks st).flatten =
        (m.map kvLine).flatten ++ (sectionChunks st).flatten := by
      simp [allChunks, defaultChunks, hl]
    obtain ⟨f, hf⟩ : ∃ f, (allChunks st).flatten.length + 1 =
        2 * m.length + (2 * (sectionChunks st).length + (f + 1)) :=
      ⟨(allChunks st).flatten.length - 2 * (allChunks st).length, by omega⟩
    have hfresh : ∀ e ∈ st, e.1 ≠ "" → e.2 ≠ [] →
        e.1 ∉ (dInit m).map Prod.fst := by
      intro e _ hne _
      rcases m with _ | ⟨kv0, t0⟩
      · simp [dInit]
      · simp [dInit, hne]
    rw [hf, hflat]
    rw [runF_kvlist m "" (2 * (sectionChunks st).length + (f + 1))
      ((sectionChunks st).flatten) 0 [] hmkv]
    rw [setAll_default m hmnd]
    rw [runF_sections st f (0 + ((m.map kvLine).flatten).length) "" (dInit m)
      hgood hnd hfresh]
    simp [parsedOf, hl]

/-! ## Pointwise comparison of the parsed store (C5) -/

theorem keepSections_cons (e : String × Sect) (t : Store) :
    keepSections (e :: t) =
      if e.1 = "" ∨ e.2 = [] then keepSections t else e :: keepSections t := rfl

theorem alookup_keepSections (st : Store) (hnd : (st.map Prod.fst).Nodup)
    (s : String) :
    alookup s (keepSections st) =
      match alookup s st with
      | none => none
      | some m => if s = "" ∨ m = [] then none else some m := by
  induction st with
  | nil => simp [keepSections, alookup]
  | cons e t ih =>
    obtain ⟨sec, m⟩ := e
    have hnd1 : sec ∉ t.map Prod.fst := (List.nodup_cons.mp (by simpa using hnd)).1
    have hnd2 : (t.map Prod.fst).Nodup := (List.nodup_cons.mp (by simpa using hnd)).2
    by_cases hdrop : sec = "" ∨ m = []
    · rw [keepSections_cons, if_pos (by simpa using hdrop)]
      by_cases hse : sec = s
      · subst hse
        have hnone : alookup sec t = none := alookup_none_of_not_mem sec t hnd1
        rw [ih hnd2, hnone]
        simp [alookup, hdrop]
      · rw [ih hnd2]
        simp [alookup, hse]
    · rw [keepSections_cons, if_neg (by simpa using hdrop)]
      by_cases hse : sec = s
      · subst hse
        simp [alookup, hdrop]
      · simp [alookup, hse, ih hnd2]

theorem get_parsed (st : Store) (hnd : (st.map Prod.fst).Nodup) (s k : String) :
    Get (parsedOf st) s k = Get st s k ∧ Has (parsedOf st) s k = Has st s k := by
  unfold parsedOf
  by_cases hs0 : s = ""
  · subst hs0
    have hkeep : alookup "" (keepSections st) = none := by
      rw [alookup_keepSections st hnd ""]
      rcases alookup "" st with _ | m
      · rfl
      · simp
    rcases hl : alookup "" st with _ | m
    · rw [show dInit ((none : Option Sect).getD []) = [] from rfl]
      simp only [List.nil_append]
      constructor
      · simp [Get, hkeep, hl]
      · simp [Has, hkeep, hl]
    · rcases hm : m with _ | ⟨kv0, t0⟩
      · subst hm
        rw [show dInit ((some ([] : Sect)).getD []) = [] from rfl]
        simp only [List.nil_append]
        constructor
        · simp [Get, hkeep, hl, alookup]
        · simp [Has, hkeep, hl, alookup]
      · subst hm
        rw [show dInit ((some (kv0 :: t0)).getD []) = [("", kv0 :: t0)] from by
          simp [dInit]]
        have ha : alookup "" (("", kv0 :: t0) :: keepSections st) =
            some (kv0 :: t0) := by
          simp [alookup]
        constructor
        · simp [Get, ha, hl]
        · simp [Has, ha, hl]
  · have hd0 : alookup s (dInit ((alookup "" st).getD []) ++ keepSections st) =
        alookup s (keepSections st) := by
      rw [alookup_append]
      have hs0' : ¬("" = s) := fun hh => hs0 hh.symm
      rcases alookup "" st with _ | m
      · rfl
      · rcases m with _ | _
        · rfl
        · simp [dInit, alookup, hs0']
    have hk := alookup_keepSections st hnd s
    rcases hl : alookup s st with _ | m
    · rw [hl] at hk
      constructor
      · simp [Get, hd0, hk, hl]
      · simp [Has, hd0, hk, hl]
    · rw [hl] at hk
      rcases hm : m with _ | ⟨kv0, t0⟩
      · rw [hm] at hk hl
        simp at hk
        constructor
        · simp [Get, hd0, hk, hl, alookup]
        · simp [Has, hd0, hk, hl, alookup]
      · rw [hm] at hk hl
        have hsome : alookup s (keepSections st) = some (kv0 :: t0) := by
          rw [hk]
          simp [hs0]
        constructor
        · simp [Get, hd0, hsome, hl]
        · simp [Has, hd0, hsome, hl]

/-! ## Permutation machinery (C5) -/

theorem alookup_eq_none_iff {α : Type} (k : String) (l : List (String × α)) :
    alookup k l = none ↔ k ∉ l.map Prod.fst := by
  constructor
  · intro h hmem
    induction l with
    | nil => simp at hmem
    | cons e t ih =>
      obtain ⟨k', v⟩ := e
      by_cases hk : k' = k
      · subst hk
        simp [alookup] at h
      · simp only [alookup, if_neg hk] at h
        simp only [List.map_cons, List.mem_cons] at hmem
        rcases hmem with h1 | h1
        · exact hk h1.symm
        · exact ih h h1
  · exact alookup_none_of_not_mem k l

theorem alookup_some_of_mem {α : Type} (k : String) (v : α)
    (l : List (String × α)) (hnd : (l.map Prod.fst).Nodup)
    (hmem : (k, v) ∈ l) : alookup k l = some v := by
  induction l with
  | nil => simp at hmem
  | cons e t ih =>
    obtain ⟨k', w⟩ := e
    have hnd1 : k' ∉ t.map Prod.fst := (List.nodup_cons.mp (by simpa using hnd)).1
    have hnd2 : (t.map Prod.fst).Nodup := (List.nodup_cons.mp (by simpa using hnd)).2
    rcases List.mem_cons.mp hmem with h | h
    · injection h with h1 h2
      subst h1
      subst h2
      simp [alookup]
    · by_cases hk : k' = k
      · subst hk
        exact absurd (List.mem_map_of_mem Prod.fst h) (by simpa using hnd1)
      · simp [alookup, hk, ih hnd2 h]

theorem alookup_perm {α : Type} (l l' : List (String × α)) (h : l.Perm l')
    (hnd : (l.map Prod.fst).Nodup) (k : String) : alookup k l = alookup k l' := by
  have hnd' : (l'.map Prod.fst).Nodup := ((h.map Prod.fst).nodup_iff).mp hnd
  rcases hx : alookup k l with _ | v
  · have h0 := (alookup_eq_none_iff k l).mp hx
    have h0' : k ∉ l'.map Prod.fst := fun hm =>
      h0 (((h.map Prod.fst).mem_iff).mpr hm)
    exact ((alookup_eq_none_iff k l').mpr h0').symm
  · have hm := alookup_mem k v l hx
    exact (alookup_some_of_mem k v l' hnd' (h.mem_iff.mp hm)).symm

theorem alookup_forall₂ (stm st' : Store)
    (h : List.Forall₂ (fun a b => a.1 = b.1 ∧ a.2.Perm b.2) stm st') (s : String) :
    (alookup s stm = none ∧ alookup s st' = none) ∨
    ∃ m m', alookup s stm = some m ∧ alookup s st' = some m' ∧ m.Perm m' := by
  induction h with
  | nil => left; exact ⟨rfl, rfl⟩
  | cons hab hrest ih =>
    rename_i a b ta tb
    obtain ⟨k1, m1⟩ := a
    obtain ⟨k2, m2⟩ := b
    obtain ⟨h1, h2⟩ := hab
    simp only at h1 h2
    subst h1
    by_cases hk : k1 = s
    · right
      exact ⟨m1, m2, by simp [alookup, hk], by simp [alookup, hk], h2⟩
    · rcases ih with ⟨hn1, hn2⟩ | ⟨m, m', hm1, hm2, hmp⟩
      · left
        exact ⟨by simp [alookup, hk, hn1], by simp [alookup, hk, hn2]⟩
      · right
        exact ⟨m, m', by simp [alookup, hk, hm1], by simp [alookup, hk, hm2], hmp⟩

theorem forall₂_mem_right {stm st' : Store}
    (h : List.Forall₂ (fun a b => a.1 = b.1 ∧ a.2.Perm b.2) stm st') :
    ∀ e' ∈ st', ∃ e ∈ stm, e.1 = e'.1 ∧ e.2.Perm e'.2 := by
  induction h with
  | nil => intro e' he'; simp at he'
  | cons hab hrest ih =>
    rename_i a b ta tb
    intro e' he'
    rcases List.mem_cons.mp he' with rfl | he'
    · exact ⟨a, List.mem_cons_self a ta, hab⟩
    · obtain ⟨e, he, hee⟩ := ih e' he'
      exact ⟨e, List.mem_cons_of_mem a he, hee⟩

theorem forall₂_map_fst {stm st' : Store}
    (h : List.Forall₂ (fun a b => a.1 = b.1 ∧ a.2.Perm b.2) stm st') :
    stm.map Prod.fst = st'.map Prod.fst := by
  induction h with
  | nil => rfl
  | cons hab hrest ih =>
    rename_i a b ta tb
    simp [hab.1, ih]

theorem goodStore_perm (st st' : Store) (hg : goodStore st)
    (hp : StorePerm st st') : goodStore st' := by
  obtain ⟨hnd, hgood⟩ := hg
  obtain ⟨stm, hperm, hf2⟩ := hp
  have hndm : (stm.map Prod.fst).Nodup := ((hperm.map Prod.fst).nodup_iff).mp hnd
  have hgoodm := fun e he => hgood e (hperm.mem_iff.mpr he)
  constructor
  · rw [← forall₂_map_fst hf2]
    exact hndm
  · intro e' he'
    obtain ⟨e, he, hfst, hsnd⟩ := forall₂_mem_right hf2 e' he'
    obtain ⟨h1, h2, h3⟩ := hgoodm e he
    refine ⟨?_, ?_, ?_⟩
    · exact ((hsnd.map Prod.fst).nodup_iff).mp h1
    · rw [← hfst]
      exact h2
    · intro kv hkv
      exact h3 kv (hsnd.mem_iff.mpr hkv)

theorem storePerm_get (st st' : Store) (hg : goodStore st) (hp : StorePerm st st')
    (s k : String) :
    Get st' s k = Get st s k ∧ Has st' s k = Has st s k := by
  obtain ⟨hnd, hgood⟩ := hg
  obtain ⟨stm, hperm, hf2⟩ := hp
  have h1 : alookup s st = alookup s stm := alookup_perm st stm hperm hnd s
  rcases alookup_forall₂ stm st' hf2 s with ⟨hn1, hn2⟩ | ⟨m, m', hm1, hm2, hmp⟩
  · constructor
    · simp [Get, hn2, h1.trans hn1]
    · simp [Has, hn2, h1.trans hn1]
  · have hsm : alookup s st = some m := h1.trans hm1
    have hmem := alookup_mem s m st hsm
    have hmnd := (hgood (s, m) hmem).1
    have hinner : alookup k m = alookup k m' := alookup_perm m m' hmp hmnd k
    constructor
    · simp [Get, hsm, hm2, hinner]
    · simp [Has, hsm, hm2, hinner]

/-- C5: for every store satisfying the `Set`/`Load` construction invariants
(distinct section names, distinct keys per section) whose sections, keys
and values contain no pathological characters, serializing any reordering
of it — sections in any order and each section's keys in any order, which
is exactly the serializer's unordered map iteration — and parsing the
serializer's output produces a store with exactly the same
(section, key) ↦ value mappings, observed through `Get` and `Has`. -/
theorem C5_roundtrip (st st' : Store) (hg : goodStore st) (hp : StorePerm st st') :
    ∃ st'', load ((writeTo st' none).1) = .ok st'' ∧
      ∀ s k, Get st'' s k = Get st s k ∧ Has st'' s k = Has st s k := by
  have hg' : goodStore st' := goodStore_perm st st' hg hp
  refine ⟨parsedOf st', load_write st' hg', fun s k => ?_⟩
  have h1 := get_parsed st' hg'.1 s k
  have h2 := storePerm_get st st' hg hp s k
  exact ⟨h1.1.trans h2.1, h1.2.trans h2.2⟩

/-- C5 witness: a concrete store with a default entry and one section,
serialized with that section's keys in swapped order. -/
theorem C5_witness :
    ∃ st'', load ((writeTo
        [("", [("k", "v 1")]), ("sec", [("b", "2"), ("a", "1")])] none).1) =
      .ok st'' ∧
      ∀ s k, Get st'' s k =
          Get [("", [("k", "v 1")]), ("sec", [("a", "1"), ("b", "2")])] s k ∧
        Has st'' s k =
          Has [("", [("k", "v 1")]), ("sec", [("a", "1"), ("b", "2")])] s k :=
  C5_roundtrip
    [("", [("k", "v 1")]), ("sec", [("a", "1"), ("b", "2")])]
    [("", [("k", "v 1")]), ("sec", [("b", "2"), ("a", "1")])]
    (by decide)
    ⟨[("", [("k", "v 1")]), ("sec", [("a", "1"), ("b", "2")])],
      List.Perm.refl _,
      List.Forall₂.cons ⟨rfl, List.Perm.refl _⟩
        (List.Forall₂.cons ⟨rfl, List.Perm.swap _ _ _⟩ List.Forall₂.nil)⟩

/-! ## The goodStore invariant is what Set-built stores satisfy -/

theorem map_fst_upd (st : Store) (sec k v : String) :
    ((st.map (fun e => if e.1 = sec then (e.1, insertKV e.2 k v) else e)).map
      Prod.fst) = st.map Prod.fst := by
  induction st with
  | nil => rfl
  | cons e t ih =>
    obtain ⟨k', m⟩ := e
    by_cases h : k' = sec <;> simp [h, ih]

theorem map_fst_replace (m : Sect) (k v : String) :
    ((m.map (fun e => if e.1 = k then (e.1, v) else e)).map Prod.fst) =
      m.map Prod.fst := by
  induction m with
  | nil => rfl
  | cons e t ih =>
    obtain ⟨k', w⟩ := e
    by_cases h : k' = k <;> simp [h, ih]

theorem insertKV_nodup (m : Sect) (k v : String) (h : (m.map Prod.fst).Nodup) :
    ((insertKV m k v).map Prod.fst).Nodup := by
  unfold insertKV
  by_cases hx : (alookup k m).isSome
  · rw [if_pos hx, map_fst_replace]
    exact h
  · rw [if_neg hx]
    have hk : k ∉ m.map Prod.fst :=
      (alookup_eq_none_iff k m).mp (alookup_none_of_not_isSome k m hx)
    simp [List.nodup_append, h, hk]

theorem insertKV_mem {P : String × String → Prop} (m : Sect) (k v : String)
    (hm : ∀ kv ∈ m, P kv) (hkv : P (k, v)) :
    ∀ kv ∈ insertKV m k v, P kv := by
  unfold insertKV
  by_cases hx : (alookup k m).isSome
  · rw [if_pos hx]
    intro kv hmem
    obtain ⟨e, he, rfl⟩ := List.mem_map.mp hmem
    by_cases h : e.1 = k
    · simp only [if_pos h]
      rw [h]
      exact hkv
    · simp only [if_neg h]
      exact hm e he
  · rw [if_neg hx]
    intro kv hmem
    rcases List.mem_append.mp hmem with h | h
    · exact hm kv h
    · rw [List.mem_singleton] at h
      subst h
      exact hkv

/-- `Set` preserves the store invariant used by the round-trip claim: a
store built purely by `Set` operations on good strings (starting from the
empty store, which trivially satisfies it) always satisfies `goodStore`. -/
theorem goodStore_set (st : Store) (s k v : String) (hg : goodStore st)
    (hs : ∀ c ∈ s.data, goodSecChar c) (hk : ∀ c ∈ k.data, goodKeyChar c)
    (hv : ∀ c ∈ v.data, goodValChar c) : goodStore (set st s k v) := by
  obtain ⟨hnd, hgood⟩ := hg
  unfold set
  by_cases hx : (alookup s st).isSome
  · rw [if_pos hx]
    constructor
    · rw [map_fst_upd]
      exact hnd
    · intro e' he'
      obtain ⟨e, he, rfl⟩ := List.mem_map.mp he'
      obtain ⟨h1, h2, h3⟩ := hgood e he
      by_cases h : e.1 = s
      · simp only [if_pos h]
        exact ⟨insertKV_nodup e.2 k v h1, h2, insertKV_mem e.2 k v h3 ⟨hk, hv⟩⟩
      · simp only [if_neg h]
        exact ⟨h1, h2, h3⟩
  · rw [if_neg hx]
    constructor
    · rw [List.map_append]
      have hsnot : s ∉ st.map Prod.fst :=
        (alookup_eq_none_iff s st).mp (alookup_none_of_not_isSome s st hx)
      simp [List.nodup_append, hnd, hsnot]
    · intro e' he'
      rcases List.mem_append.mp he' with h | h
      · exact hgood e' h
      · rw [List.mem_singleton] at h
        subst h
        rw [insertKV_nil]
        refine ⟨by simp, hs, ?_⟩
        intro kv hkv
        rw [List.mem_singleton] at hkv
        subst hkv
        exact ⟨hk, hv⟩

theorem goodStore_nil : goodStore [] := by
  constructor
  · exact List.nodup_nil
  · intro e he
    simp at he

end Ini
